import Mathlib

set_option synthInstance.maxHeartbeats 400000
set_option maxHeartbeats 1000000

/-!
Verification of the Mockup_up_data record-generation engine.

The Python sources (src/src/mockgen/core.py, src/src/mockgen/cli.py,
src/src/mockgen/consolidated_generator.py, src/generate_mock_output.py) are
shallowly embedded below.  Python strings are modelled as lists of
characters (`Str`), JSON/Python values as the inductive `PyVal`, and Python
dicts as insertion-ordered association lists with the update-or-append
assignment semantics of CPython dicts (`pyInsert`).  Calls to
`random.choice` are modelled by threading a stream of natural numbers
`rho : Nat -> Nat` together with a counter: each call consumes one stream
value `k` and returns the element at position `k mod len(pool)`, so every
possible behaviour of the random generator corresponds to some stream.
Fatal `SystemExit` errors are modelled structurally with `Except`.
-/

namespace Mockup

/-- Python strings, modelled as lists of characters. -/
abbrev Str := List Char

/-- JSON/Python values as handled by the engine: strings, integers, lists
and dicts (insertion-ordered association lists keyed by strings). -/
inductive PyVal where
  | str  : Str → PyVal
  | int  : Int → PyVal
  | list : List PyVal → PyVal
  | dict : List (Str × PyVal) → PyVal

/-- A Python dict with values of type `b`: an insertion-ordered association
list.  CPython dicts preserve insertion order; assignment updates the value
in place when the key exists and appends otherwise. -/
abbrev PyDict (b : Type) := List (Str × b)

/-- Dict lookup (`d[k]`), returning `none` when the key is absent. -/
def pyGet {b : Type} : PyDict b → Str → Option b
  | [], _ => none
  | (k1, v) :: rest, k => if k1 = k then some v else pyGet rest k

/-- Dict assignment `d[k] = v`: update in place when `k` is present
(keeping its position), append otherwise. -/
def pyInsert {b : Type} : PyDict b → Str → b → PyDict b
  | [], k, v => [(k, v)]
  | (k1, v1) :: rest, k, v =>
      if k1 = k then (k, v) :: rest else (k1, v1) :: pyInsert rest k v

/-- The key list of a dict, in insertion order (`list(d.keys())`). -/
def pyKeys {b : Type} (d : PyDict b) : List Str := d.map Prod.fst

theorem pyKeys_cons {b : Type} (p : Str × b) (tl : PyDict b) :
    pyKeys (p :: tl) = p.1 :: pyKeys tl := rfl

theorem pyGet_cons_ne {b : Type} (k1 : Str) (v1 : b) (rest : PyDict b)
    (k : Str) (h : k1 ≠ k) : pyGet ((k1, v1) :: rest) k = pyGet rest k := by
  simp [pyGet, h]

theorem pyGet_cons_self {b : Type} (k : Str) (v : b) (rest : PyDict b) :
    pyGet ((k, v) :: rest) k = some v := by
  simp [pyGet]

theorem pyGet_eq_none_iff {b : Type} (d : PyDict b) (k : Str) :
    pyGet d k = none ↔ k ∉ pyKeys d := by
  induction d with
  | nil => simp [pyGet, pyKeys]
  | cons hd tl ih =>
      obtain ⟨k1, v1⟩ := hd
      rw [pyKeys_cons]
      by_cases h : k1 = k
      · subst h
        simp [pyGet_cons_self]
      · rw [pyGet_cons_ne _ _ _ _ h, List.mem_cons, ih]
        constructor
        · rintro hk (he | hm)
          · exact h he.symm
          · exact hk hm
        · intro hk hm
          exact hk (Or.inr hm)

theorem pyInsert_of_not_mem {b : Type} (d : PyDict b) (k : Str) (v : b)
    (h : k ∉ pyKeys d) : pyInsert d k v = d ++ [(k, v)] := by
  induction d with
  | nil => simp [pyInsert]
  | cons hd tl ih =>
      obtain ⟨k1, v1⟩ := hd
      rw [pyKeys_cons, List.mem_cons] at h
      push_neg at h
      have h1 : k1 ≠ k := Ne.symm h.1
      simp [pyInsert, h1, ih h.2]

theorem pyKeys_insert_of_mem {b : Type} (d : PyDict b) (k : Str) (v : b)
    (h : k ∈ pyKeys d) : pyKeys (pyInsert d k v) = pyKeys d := by
  induction d with
  | nil => simp [pyKeys] at h
  | cons hd tl ih =>
      obtain ⟨k1, v1⟩ := hd
      by_cases hk : k1 = k
      · subst hk
        simp [pyInsert, pyKeys]
      · rw [pyKeys_cons, List.mem_cons] at h
        rcases h with h | h
        · exact absurd h.symm hk
        · simp only [pyInsert, if_neg hk, pyKeys_cons, ih h]

theorem pyGet_insert_self {b : Type} (d : PyDict b) (k : Str) (v : b) :
    pyGet (pyInsert d k v) k = some v := by
  induction d with
  | nil => simp [pyInsert, pyGet]
  | cons hd tl ih =>
      obtain ⟨k1, v1⟩ := hd
      by_cases hk : k1 = k
      · subst hk
        simp [pyInsert, pyGet]
      · simp only [pyInsert, if_neg hk]
        rw [pyGet_cons_ne _ _ _ _ hk]
        exact ih

theorem pyGet_insert_ne {b : Type} (d : PyDict b) (k k2 : Str) (v : b)
    (h : k ≠ k2) : pyGet (pyInsert d k v) k2 = pyGet d k2 := by
  induction d with
  | nil => simp [pyInsert, pyGet, h]
  | cons hd tl ih =>
      obtain ⟨k1, v1⟩ := hd
      by_cases hk : k1 = k
      · subst hk
        rw [show pyInsert ((k1, v1) :: tl) k1 v = (k1, v) :: tl by simp [pyInsert]]
        rw [pyGet_cons_ne _ _ _ _ h, pyGet_cons_ne _ _ _ _ h]
      · simp only [pyInsert, if_neg hk]
        by_cases hk2 : k1 = k2
        · subst hk2
          rw [pyGet_cons_self, pyGet_cons_self]
        · rw [pyGet_cons_ne _ _ _ _ hk2, pyGet_cons_ne _ _ _ _ hk2]
          exact ih

theorem pyGet_of_mem_nodup {b : Type} (d : PyDict b) (k : Str) (v : b)
    (hnd : (pyKeys d).Nodup) (h : (k, v) ∈ d) : pyGet d k = some v := by
  induction d with
  | nil => simp at h
  | cons hd tl ih =>
      obtain ⟨k1, v1⟩ := hd
      rw [pyKeys_cons, List.nodup_cons] at hnd
      rcases List.mem_cons.mp h with h | h
      · cases h
        exact pyGet_cons_self _ _ _
      · have hk1 : k1 ≠ k := by
          intro he
          subst he
          have hm : k1 ∈ List.map Prod.fst tl := List.mem_map_of_mem Prod.fst h
          exact hnd.1 hm
        rw [pyGet_cons_ne _ _ _ _ hk1]
        exact ih hnd.2 h

theorem mem_of_pyGet_eq_some {b : Type} (d : PyDict b) (k : Str) (v : b)
    (h : pyGet d k = some v) : (k, v) ∈ d := by
  induction d with
  | nil => simp [pyGet] at h
  | cons hd tl ih =>
      obtain ⟨k1, v1⟩ := hd
      by_cases hk : k1 = k
      · subst hk
        rw [pyGet_cons_self] at h
        cases h
        exact List.mem_cons_self _ _
      · rw [pyGet_cons_ne _ _ _ _ hk] at h
        exact List.mem_cons_of_mem _ (ih h)

/-! ## Python string primitives -/

/-- The whitespace characters removed by Python `str.strip()` (the ASCII
ones; the engine's data is ASCII). -/
def isPySpace (c : Char) : Bool :=
  c = ' ' || c = '\t' || c = '\n' || c = '\r' || c = '\x0b' || c = '\x0c'

/-- Drop trailing characters satisfying `p`. -/
def dropTrailing (p : Char → Bool) (s : Str) : Str :=
  (s.reverse.dropWhile p).reverse

/-- Python `str.strip()`: remove leading and trailing whitespace. -/
def pyStrip (s : Str) : Str :=
  dropTrailing isPySpace (s.dropWhile isPySpace)

/-- Python `str.split(",")`: split on every comma; the empty string splits
to one empty part. -/
def pySplitComma : Str → List Str
  | [] => [[]]
  | c :: cs =>
      let r := pySplitComma cs
      if c = ',' then [] :: r
      else (c :: r.headD []) :: r.tail

/-- Python `",".join(parts)`. -/
def pyJoinComma : List Str → Str
  | [] => []
  | [s] => s
  | s :: rest => s ++ ',' :: pyJoinComma rest

/-- The decimal digit characters. -/
def digitChar : Nat → Char
  | 0 => '0'
  | 1 => '1'
  | 2 => '2'
  | 3 => '3'
  | 4 => '4'
  | 5 => '5'
  | 6 => '6'
  | 7 => '7'
  | 8 => '8'
  | 9 => '9'
  | _ => '?'

/-- Decimal rendering of a natural number, fuelled so that the definition
is structurally recursive (hence kernel-computable); the fuel is always
sufficient since a number `n` has at most `n + 1` digits. -/
def natReprF : Nat → Nat → Str
  | 0, _ => []
  | fuel + 1, n =>
      if n < 10 then [digitChar n]
      else natReprF fuel (n / 10) ++ [digitChar (n % 10)]

/-- Python `str(n)` for a non-negative integer `n`. -/
def natRepr (n : Nat) : Str := natReprF (n + 1) n

/-- Python `str(n)` for an integer. -/
def intRepr (n : Int) : Str :=
  if n < 0 then '-' :: natRepr n.natAbs else natRepr n.toNat

/-- Python `str(v)`.  Strings pass through unchanged, integers render in
decimal; containers render with brackets and comma-joined elements.  (The
container rendering abbreviates Python's `repr`: element quoting is
omitted.  No claim below depends on the exact text of a stringified
container, only on it being a non-empty, comma-containing-when-plural
bracketed string.)  Fuelled to be structurally recursive; `sizeOf v`
strictly exceeds the nesting depth, so the zero-fuel case is unreachable. -/
def pyStrOfF : Nat → PyVal → Str
  | _, .str s => s
  | _, .int n => intRepr n
  | 0, _ => []
  | fuel + 1, .list vs =>
      '[' :: pyJoinComma (vs.map (fun e => pyStrOfF fuel e)) ++ [']']
  | fuel + 1, .dict d =>
      '\x7b' :: pyJoinComma (d.map (fun p => p.1 ++ ':' :: ' ' :: pyStrOfF fuel p.2)) ++ ['\x7d']

/-- A size measure on values, used only to fuel `pyStrOf`; it strictly
exceeds the container nesting depth. -/
def pySize : PyVal → Nat
  | .str _ => 1
  | .int _ => 1
  | .list vs => 1 + (vs.attach.map (fun e => pySize e.1)).sum
  | .dict d => 1 + (d.attach.map (fun p => pySize p.1.2)).sum
termination_by v => sizeOf v
decreasing_by
  · have h1 := List.sizeOf_lt_of_mem e.2
    simp only [PyVal.list.sizeOf_spec]
    omega
  · have h1 := List.sizeOf_lt_of_mem p.2
    have h2 : sizeOf p.1.2 < sizeOf p.1 := by
      obtain ⟨⟨a, b⟩, hp⟩ := p
      simp only [Prod.mk.sizeOf_spec]
      omega
    simp only [PyVal.dict.sizeOf_spec]
    omega

/-- Python `str(v)`.  (Scalars are rendered directly so that the kernel
can evaluate them without unfolding the well-founded `pySize`.) -/
def pyStrOf : PyVal → Str
  | .str s => s
  | .int n => intRepr n
  | v => pyStrOfF (pySize v) v

/-! ## `_to_choice_list` (src/src/mockgen/core.py lines 355-362 and
src/generate_mock_output.py lines 38-47, identical code)

```
def _to_choice_list(value: Any) -> List[str]:
    if isinstance(value, list):
        items = [str(v).strip() for v in value]
    elif isinstance(value, str):
        items = [v.strip() for v in value.split(",")]
    else:
        items = [str(value).strip()]
    return [v for v in items if v]
```
-/

def toChoiceList : PyVal → List Str
  | .list vs => (vs.map (fun v => pyStrip (pyStrOf v))).filter (fun s => !s.isEmpty)
  | .str s => ((pySplitComma s).map pyStrip).filter (fun s => !s.isEmpty)
  | v => ([pyStrip (pyStrOf v)]).filter (fun s => !s.isEmpty)

/-! ### Lemmas about strip, split and join -/

theorem dropWhile_idem (p : Char → Bool) (l : Str) :
    (l.dropWhile p).dropWhile p = l.dropWhile p := by
  induction l with
  | nil => simp
  | cons c cs ih =>
      by_cases h : p c
      · simp [List.dropWhile, h, ih]
      · simp [List.dropWhile, h]

theorem dropWhile_head_false (p : Char → Bool) (l : Str) (c : Char)
    (h : (l.dropWhile p).head? = some c) : p c = false := by
  induction l with
  | nil => simp at h
  | cons a as ih =>
      by_cases ha : p a
      · simp [List.dropWhile, ha] at h
        exact ih h
      · simp [List.dropWhile, ha] at h
        subst h
        simpa using ha

theorem dropWhile_of_head_false (p : Char → Bool) (l : Str)
    (h : ∀ c, l.head? = some c → p c = false) : l.dropWhile p = l := by
  cases l with
  | nil => simp
  | cons c cs => simp [List.dropWhile, h c rfl]

/-- The function `dropTrailing` yields a leading part of its argument. -/
theorem dropTrailing_isPrefix (p : Char → Bool) (l : Str) :
    ∃ t, dropTrailing p l ++ t = l := by
  unfold dropTrailing
  obtain ⟨t, ht⟩ : ∃ t, t ++ l.reverse.dropWhile p = l.reverse :=
    ⟨l.reverse.takeWhile p, List.takeWhile_append_dropWhile p l.reverse⟩
  refine ⟨t.reverse, ?_⟩
  have := congrArg List.reverse ht
  simpa using this

theorem head_of_append_eq {α : Type} (a b l : List α) (hne : a ≠ [])
    (h : a ++ b = l) : a.head? = l.head? := by
  cases a with
  | nil => exact absurd rfl hne
  | cons x xs => simp [← h]

theorem dropWhile_dropTrailing (p : Char → Bool) (l : Str)
    (h : l.dropWhile p = l) :
    (dropTrailing p l).dropWhile p = dropTrailing p l := by
  by_cases hemp : dropTrailing p l = []
  · simp [hemp]
  · obtain ⟨t, ht⟩ := dropTrailing_isPrefix p l
    apply dropWhile_of_head_false
    intro c hc
    have hhead : (dropTrailing p l).head? = l.head? :=
      head_of_append_eq _ _ _ hemp ht
    rw [hhead] at hc
    have : (l.dropWhile p).head? = some c := by rw [h]; exact hc
    exact dropWhile_head_false p l c this

theorem dropTrailing_idem (p : Char → Bool) (l : Str) :
    dropTrailing p (dropTrailing p l) = dropTrailing p l := by
  unfold dropTrailing
  simp [dropWhile_idem]

theorem pyStrip_idem (s : Str) : pyStrip (pyStrip s) = pyStrip s := by
  unfold pyStrip
  rw [dropWhile_dropTrailing isPySpace _ (dropWhile_idem _ _)]
  exact dropTrailing_idem _ _

/-- Splitting a comma-free string gives back the single part. -/
theorem pySplitComma_comma_free (s : Str) (h : ',' ∉ s) :
    pySplitComma s = [s] := by
  induction s with
  | nil => rfl
  | cons c cs ih =>
      have hc : c ≠ ',' := fun he => h (he ▸ List.mem_cons_self c cs)
      have hcs : ',' ∉ cs := fun hm => h (List.mem_cons_of_mem c hm)
      simp [pySplitComma, hc, ih hcs]

/-- Splitting a string that starts with a comma-free piece. -/
theorem pySplitComma_append (s t : Str) (h : ',' ∉ s) :
    pySplitComma (s ++ t) =
      (s ++ (pySplitComma t).headD []) :: (pySplitComma t).tail := by
  induction s with
  | nil =>
      cases ht : pySplitComma t with
      | nil =>
          exfalso
          induction t with
          | nil => simp [pySplitComma] at ht
          | cons a as iha =>
              by_cases ha : a = ','
              · simp [pySplitComma, ha] at ht
              · simp [pySplitComma, ha] at ht
      | cons x xs => simp [ht]
  | cons c cs ih =>
      have hc : c ≠ ',' := fun he => h (he ▸ List.mem_cons_self c cs)
      have hcs : ',' ∉ cs := fun hm => h (List.mem_cons_of_mem c hm)
      simp [pySplitComma, hc, ih hcs]

/-- Splitting the comma-join of comma-free, non-empty part lists gives the
parts back. -/
theorem pySplitComma_pyJoinComma (parts : List Str) (hp : parts ≠ [])
    (h : ∀ s ∈ parts, ',' ∉ s) :
    pySplitComma (pyJoinComma parts) = parts := by
  induction parts with
  | nil => exact absurd rfl hp
  | cons s rest ih =>
      cases rest with
      | nil =>
          simp [pyJoinComma]
          exact pySplitComma_comma_free s (h s (List.mem_cons_self s []))
      | cons s2 rest2 =>
          have hjoin : pyJoinComma (s :: s2 :: rest2) =
              s ++ ',' :: pyJoinComma (s2 :: rest2) := rfl
          rw [hjoin, pySplitComma_append s _ (h s (List.mem_cons_self _ _))]
          have hrest : pySplitComma (',' :: pyJoinComma (s2 :: rest2)) =
              [] :: pySplitComma (pyJoinComma (s2 :: rest2)) := by
            simp [pySplitComma]
          rw [hrest, ih (by simp) (fun x hx => h x (List.mem_cons_of_mem _ hx))]
          simp

/-- Every element of a coerced pool is strip-fixed and non-empty. -/
theorem toChoiceList_mem_strip (v : PyVal) (s : Str) (h : s ∈ toChoiceList v) :
    pyStrip s = s ∧ s ≠ [] := by
  have main : ∀ (l : List Str), s ∈ l.filter (fun s => !s.isEmpty) →
      (∀ x ∈ l, ∃ y, x = pyStrip y) → pyStrip s = s ∧ s ≠ [] := by
    intro l hf hl
    obtain ⟨hm, hne⟩ := List.mem_filter.mp hf
    obtain ⟨y, hy⟩ := hl s hm
    refine ⟨by rw [hy, pyStrip_idem], ?_⟩
    intro he
    rw [he] at hne
    simp at hne
  cases v with
  | list vs =>
      refine main _ h ?_
      intro x hx
      obtain ⟨e, _, he⟩ := List.mem_map.mp hx
      exact ⟨pyStrOf e, he.symm⟩
  | str t =>
      refine main _ h ?_
      intro x hx
      obtain ⟨e, _, he⟩ := List.mem_map.mp hx
      exact ⟨e, he.symm⟩
  | int n =>
      refine main _ h ?_
      intro x hx
      exact ⟨pyStrOf (.int n), List.mem_singleton.mp hx⟩
  | dict d =>
      refine main _ h ?_
      intro x hx
      exact ⟨pyStrOf (.dict d), List.mem_singleton.mp hx⟩

/-- C5 (amended).  Coercion is idempotent for comma-free pools: whenever no
coerced element contains a comma (automatic when the original input was a
string, since splitting on commas leaves no commas inside parts), applying
`_to_choice_list`, joining the result with commas, and applying
`_to_choice_list` again reproduces exactly the first result; and a list of
comma-free strings and their comma-join coerce to the same list.  (Without
the comma-free restriction the claim fails, see the counterexample.) -/
theorem toChoiceList_idem_of_comma_free (v : PyVal)
    (h : ∀ s ∈ toChoiceList v, ',' ∉ s) :
    toChoiceList (.str (pyJoinComma (toChoiceList v))) = toChoiceList v ∧
    (∀ ss : List Str, (∀ s ∈ ss, ',' ∉ s) →
      toChoiceList (.list (ss.map PyVal.str)) =
        toChoiceList (.str (pyJoinComma ss))) := by
  constructor
  · by_cases hp : toChoiceList v = []
    · rw [hp]
      rfl
    · show ((pySplitComma (pyJoinComma (toChoiceList v))).map pyStrip).filter
          (fun s => !s.isEmpty) = toChoiceList v
      rw [pySplitComma_pyJoinComma _ hp h]
      have hmap : (toChoiceList v).map pyStrip = toChoiceList v := by
        conv_rhs => rw [← List.map_id (toChoiceList v)]
        exact List.map_congr_left
          (fun s hs => (toChoiceList_mem_strip v s hs).1)
      rw [hmap]
      refine List.filter_eq_self.mpr ?_
      intro s hs
      have := (toChoiceList_mem_strip v s hs).2
      simpa using this
  · intro ss hss
    cases ss with
    | nil => rfl
    | cons s rest =>
        show (((s :: rest).map PyVal.str).map
            (fun v => pyStrip (pyStrOf v))).filter (fun s => !s.isEmpty) =
          ((pySplitComma (pyJoinComma (s :: rest))).map pyStrip).filter
            (fun s => !s.isEmpty)
        rw [pySplitComma_pyJoinComma _ (by simp) hss, List.map_map]
        rfl

/-- C5 counterexample.  For the pool `["a,b"]` (a list whose element
contains a comma), re-coercing the comma-join does not reproduce the same
set of values: the first coercion yields the single value `a,b`, the
second yields the two values `a` and `b`. -/
theorem toChoiceList_idem_counterexample :
    toChoiceList (.list [.str "a,b".data]) = ["a,b".data] ∧
    toChoiceList (.str (pyJoinComma (toChoiceList (.list [.str "a,b".data]))))
      = ["a".data, "b".data] ∧
    "a,b".data ∈ toChoiceList (.list [.str "a,b".data]) ∧
    "a,b".data ∉
      toChoiceList (.str (pyJoinComma (toChoiceList (.list [.str "a,b".data])))) := by
  refine ⟨by decide, by decide, by decide, by decide⟩

/-- Witness for C5 at the concrete comma-free pool `["ab", " c "]`. -/
theorem toChoiceList_idem_witness :
    toChoiceList (.str (pyJoinComma
        (toChoiceList (.list [.str "ab".data, .str " c ".data])))) =
      toChoiceList (.list [.str "ab".data, .str " c ".data]) :=
  (toChoiceList_idem_of_comma_free (.list [.str "ab".data, .str " c ".data])
    (by decide)).1

/-! ## `load_user_config` (src/src/mockgen/core.py lines 101-201)

The embedding starts from the parsed JSON document (a top-level dict);
file-IO and JSON-parse failures happen before the logic under test.  The
`SystemExit` messages are modelled structurally by `LoadError`: the
rendering of an error value into the message text is peripheral glue. -/

/-- A normalized section: field name to value pool. -/
abbrev Sec := PyDict PyVal

/-- The `REQUIRED_FIELDS` constant of src/src/mockgen/core.py line 13. -/
def REQUIRED_FIELDS : List Str :=
  ["PRICNG_ZIP_STATE".data, "CLM_TYPE".data, "SRVC_FROM_DT".data,
   "HCID".data, "PAT_BRTH_DT".data, "PAT_FRST_NME".data,
   "PAT_LAST_NME".data, "ClaimDetails".data]

/-- Fatal configuration errors.  `missingFields key fields` stands for the
`SystemExit` whose message names section `key` and the comma-joined
`fields`; `configMissingFields` is the single-section variant of that
message; `noValidEditSections` / `noValidSections` are the empty-parse
errors; `typeError key` stands for the `TypeError` Python raises when a
section value is not a dict and a required field name tests as present in
it (string/list containment) so that indexing it with a string fails. -/
inductive LoadError where
  | missingFields (key : Str) (fields : List Str)
  | configMissingFields (fields : List Str)
  | noValidEditSections
  | noValidSections
  | typeError (key : Str)

/-- Value coercion of the `Model_` branch (core.py lines 118-125): lists
pass through unchanged, strings are comma-split and trimmed, any other
scalar is stringified and wrapped. -/
def coerceModelValue : PyVal → PyVal
  | .list vs => .list vs
  | .str s =>
      .list ((((pySplitComma s).map pyStrip).filter
        (fun x => !x.isEmpty)).map PyVal.str)
  | v => .list [.str (pyStrOf v)]

/-- The `Model_` branch (core.py lines 112-126): every dict-valued
top-level entry is kept, with fields coerced but NOT validated against
`REQUIRED_FIELDS`. -/
def loadModelBranch (data : PyDict PyVal) : PyDict Sec :=
  data.foldl
    (fun acc p =>
      match p.2 with
      | .dict md =>
          pyInsert acc p.1
            (md.foldl (fun s q => pyInsert s q.1 (coerceModelValue q.2)) [])
      | _ => acc)
    []

/-- The required-field validation loop shared by the `Edit_`, generic and
single-section branches (core.py lines 136-144, 163-171, 186-194):
accumulate the normalized section and the missing-or-empty field list. -/
def normalizeFields (d : PyDict PyVal) :
    List Str → PyDict PyVal → List Str → PyDict PyVal × List Str
  | [], acc, miss => (acc, miss)
  | f :: fs, acc, miss =>
      match pyGet d f with
      | none => normalizeFields d fs acc (miss ++ [f])
      | some v =>
          let choices := toChoiceList v
          if choices.isEmpty then normalizeFields d fs acc (miss ++ [f])
          else
            normalizeFields d fs
              (pyInsert acc f (.list (choices.map PyVal.str))) miss

/-- Validate one section dict against `REQUIRED_FIELDS`. -/
def normalizeRequired (d : PyDict PyVal) : PyDict PyVal × List Str :=
  normalizeFields d REQUIRED_FIELDS [] []

/-- Python substring test `pat in hay`. -/
def strContains (hay pat : Str) : Bool :=
  hay.tails.any (fun t => pat.isPrefixOf t)

/-- Whether the string `f` tests as a member of the non-dict value `v`
under Python `in` (element equality for lists, substring for strings). -/
def strTestsIn (f : Str) : PyVal → Bool
  | .list vs => vs.any (fun e => match e with | .str s => s == f | _ => false)
  | .str s => strContains s f
  | _ => false

/-- The `Edit_` branch (core.py lines 129-153): keep only `Edit_`-keyed
sections, validate each, abort on the first bad one.  A non-dict section
value either raises `TypeError` (when some required field name tests as
contained in it, since indexing it by string then fails; or immediately
for non-container values) or reports every required field missing. -/
def loadEditSections :
    List (Str × PyVal) → PyDict Sec → Except LoadError (PyDict Sec)
  | [], acc => .ok acc
  | (key, val) :: rest, acc =>
      if ("Edit_".data).isPrefixOf key then
        match val with
        | .dict d =>
            let r := normalizeRequired d
            if r.2.isEmpty then loadEditSections rest (pyInsert acc key r.1)
            else .error (.missingFields key r.2)
        | .list vs =>
            if REQUIRED_FIELDS.any (fun f => strTestsIn f (.list vs)) then
              .error (.typeError key)
            else .error (.missingFields key REQUIRED_FIELDS)
        | .str s =>
            if REQUIRED_FIELDS.any (fun f => strTestsIn f (.str s)) then
              .error (.typeError key)
            else .error (.missingFields key REQUIRED_FIELDS)
        | .int _ => .error (.typeError key)
      else loadEditSections rest acc

/-- The generic flat branch (core.py lines 156-181): every top-level value
is a dict; validate each section, abort on the first bad one. -/
def loadFlatSections :
    List (Str × PyVal) → PyDict Sec → Except LoadError (PyDict Sec)
  | [], acc => .ok acc
  | (key, val) :: rest, acc =>
      match val with
      | .dict d =>
          let r := normalizeRequired d
          if r.2.isEmpty then loadFlatSections rest (pyInsert acc key r.1)
          else .error (.missingFields key r.2)
      | _ => loadFlatSections rest acc

/-- Embedding of `load_user_config` (core.py lines 101-201), from the parsed document. -/
def load_user_config (data : PyDict PyVal) : Except LoadError (PyDict Sec) :=
  if data.any (fun p => ("Model_".data).isPrefixOf p.1) then
    .ok (loadModelBranch data)
  else if data.any (fun p => ("Edit_".data).isPrefixOf p.1) then
    match loadEditSections data [] with
    | .error e => .error e
    | .ok parsed =>
        if parsed.isEmpty then .error .noValidEditSections else .ok parsed
  else if data.all (fun p => match p.2 with | .dict _ => true | _ => false) then
    match loadFlatSections data [] with
    | .error e => .error e
    | .ok parsed =>
        if parsed.isEmpty then .error .noValidSections else .ok parsed
  else
    let r := normalizeRequired data
    if r.2.isEmpty then .ok [("Edit_1".data, r.1)]
    else .error (.configMissingFields r.2)

/-! ### Validation lemmas for `load_user_config` -/

/-- Whether a required field is absent or coerces to an empty pool. -/
def fieldBad (d : PyDict PyVal) (f : Str) : Bool :=
  match pyGet d f with
  | none => true
  | some fv => (toChoiceList fv).isEmpty

/-- The missing-or-empty required fields of a section value, as named by
the validation error message. -/
def missingRequired : PyVal → List Str
  | .dict d => REQUIRED_FIELDS.filter (fieldBad d)
  | _ => REQUIRED_FIELDS

theorem normalizeFields_step_none (d : PyDict PyVal) (f : Str)
    (fs : List Str) (acc : PyDict PyVal) (miss : List Str)
    (hf : pyGet d f = none) :
    normalizeFields d (f :: fs) acc miss =
      normalizeFields d fs acc (miss ++ [f]) := by
  simp [normalizeFields, hf]

theorem normalizeFields_step_empty (d : PyDict PyVal) (f : Str)
    (fs : List Str) (acc : PyDict PyVal) (miss : List Str) (v : PyVal)
    (hf : pyGet d f = some v) (hc : (toChoiceList v).isEmpty = true) :
    normalizeFields d (f :: fs) acc miss =
      normalizeFields d fs acc (miss ++ [f]) := by
  simp [normalizeFields, hf, hc]

theorem normalizeFields_step_good (d : PyDict PyVal) (f : Str)
    (fs : List Str) (acc : PyDict PyVal) (miss : List Str) (v : PyVal)
    (hf : pyGet d f = some v) (hc : (toChoiceList v).isEmpty = false) :
    normalizeFields d (f :: fs) acc miss =
      normalizeFields d fs
        (pyInsert acc f (.list ((toChoiceList v).map PyVal.str))) miss := by
  simp [normalizeFields, hf, hc]

theorem normalizeFields_miss (d : PyDict PyVal) (L : List Str)
    (acc : PyDict PyVal) (miss : List Str) :
    (normalizeFields d L acc miss).2 = miss ++ L.filter (fieldBad d) := by
  induction L generalizing acc miss with
  | nil => simp [normalizeFields]
  | cons f fs ih =>
      cases hf : pyGet d f with
      | none =>
          rw [normalizeFields_step_none d f fs acc miss hf, ih]
          simp [List.filter_cons, fieldBad, hf]
      | some v =>
          cases hc : (toChoiceList v).isEmpty with
          | true =>
              rw [normalizeFields_step_empty d f fs acc miss v hf hc, ih]
              simp [List.filter_cons, fieldBad, hf, hc]
          | false =>
              rw [normalizeFields_step_good d f fs acc miss v hf hc, ih]
              simp [List.filter_cons, fieldBad, hf, hc]

theorem normalizeFields_get_not_mem (d : PyDict PyVal) (L : List Str)
    (acc : PyDict PyVal) (miss : List Str) (g : Str) (hg : g ∉ L) :
    pyGet (normalizeFields d L acc miss).1 g = pyGet acc g := by
  induction L generalizing acc miss with
  | nil => rfl
  | cons f fs ih =>
      have hfg : f ≠ g := fun he => hg (he ▸ List.mem_cons_self f fs)
      have hgs : g ∉ fs := fun hm => hg (List.mem_cons_of_mem f hm)
      cases hf : pyGet d f with
      | none => rw [normalizeFields_step_none d f fs acc miss hf, ih _ _ hgs]
      | some v =>
          cases hc : (toChoiceList v).isEmpty with
          | true =>
              rw [normalizeFields_step_empty d f fs acc miss v hf hc,
                ih _ _ hgs]
          | false =>
              rw [normalizeFields_step_good d f fs acc miss v hf hc,
                ih _ _ hgs, pyGet_insert_ne _ _ _ _ hfg]

theorem normalizeFields_get_good (d : PyDict PyVal) (L : List Str)
    (acc : PyDict PyVal) (miss : List Str) (f : Str) (hnd : L.Nodup)
    (hf : f ∈ L) (hgood : fieldBad d f = false) :
    ∃ cs, cs ≠ [] ∧
      pyGet (normalizeFields d L acc miss).1 f =
        some (.list (cs.map PyVal.str)) := by
  induction L generalizing acc miss with
  | nil => simp at hf
  | cons g gs ih =>
      rw [List.nodup_cons] at hnd
      rcases List.mem_cons.mp hf with hfg | hfm
      · subst hfg
        cases hd : pyGet d f with
        | none => simp [fieldBad, hd] at hgood
        | some v =>
            have hc : (toChoiceList v).isEmpty = false := by
              simpa [fieldBad, hd] using hgood
            refine ⟨toChoiceList v, by simpa using hc, ?_⟩
            rw [normalizeFields_step_good d f gs acc miss v hd hc,
              normalizeFields_get_not_mem d gs _ _ f hnd.1]
            exact pyGet_insert_self _ _ _
      · cases hd : pyGet d g with
        | none =>
            rw [normalizeFields_step_none d g gs acc miss hd]
            exact ih _ _ hnd.2 hfm
        | some v =>
            cases hc : (toChoiceList v).isEmpty with
            | true =>
                rw [normalizeFields_step_empty d g gs acc miss v hd hc]
                exact ih _ _ hnd.2 hfm
            | false =>
                rw [normalizeFields_step_good d g gs acc miss v hd hc]
                exact ih _ _ hnd.2 hfm

theorem mem_pyInsert {b : Type} (acc : PyDict b) (k : Str) (v : b)
    (k2 : Str) (v2 : b) (h : (k2, v2) ∈ pyInsert acc k v) :
    (k2, v2) ∈ acc ∨ (k2 = k ∧ v2 = v) := by
  induction acc with
  | nil =>
      simp [pyInsert] at h
      exact Or.inr ⟨h.1, h.2⟩
  | cons hd tl ih =>
      obtain ⟨k1, v1⟩ := hd
      by_cases hk : k1 = k
      · subst hk
        simp only [pyInsert, if_pos rfl] at h
        rcases List.mem_cons.mp h with h | h
        · obtain ⟨h1, h2⟩ := Prod.mk.injEq .. ▸ h
          exact Or.inr ⟨h1, h2⟩
        · exact Or.inl (List.mem_cons_of_mem _ h)
      · simp only [pyInsert, if_neg hk] at h
        rcases List.mem_cons.mp h with h | h
        · exact Or.inl (h ▸ List.mem_cons_self _ _)
        · rcases ih h with h | h
          · exact Or.inl (List.mem_cons_of_mem _ h)
          · exact Or.inr h

/-- A section is good when every required field holds a non-empty list. -/
def goodSec (s : Sec) : Prop :=
  ∀ f ∈ REQUIRED_FIELDS, ∃ vs, vs ≠ [] ∧ pyGet s f = some (.list vs)

theorem normalizeRequired_good (d : PyDict PyVal)
    (h : (normalizeRequired d).2.isEmpty = true) :
    goodSec (normalizeRequired d).1 := by
  intro f hf
  have hmiss : REQUIRED_FIELDS.filter (fieldBad d) = [] := by
    have := normalizeFields_miss d REQUIRED_FIELDS [] []
    rw [normalizeRequired] at h
    rw [this] at h
    simpa using h
  have hgood : fieldBad d f = false := by
    have := List.filter_eq_nil_iff.mp hmiss f hf
    simpa using this
  have hnd : REQUIRED_FIELDS.Nodup := by decide
  obtain ⟨cs, hcs, hget⟩ :=
    normalizeFields_get_good d REQUIRED_FIELDS [] [] f hnd hf hgood
  exact ⟨cs.map PyVal.str, by simpa [List.map_eq_nil_iff] using hcs, hget⟩

theorem loadEditSections_step_skip (key : Str) (val : PyVal)
    (rest : List (Str × PyVal)) (acc : PyDict Sec)
    (hp : ("Edit_".data).isPrefixOf key = false) :
    loadEditSections ((key, val) :: rest) acc = loadEditSections rest acc := by
  cases val <;> simp [loadEditSections, hp]

theorem loadEditSections_step_ok (key : Str) (d : PyDict PyVal)
    (rest : List (Str × PyVal)) (acc : PyDict Sec)
    (hp : ("Edit_".data).isPrefixOf key = true)
    (hm : (normalizeRequired d).2.isEmpty = true) :
    loadEditSections ((key, .dict d) :: rest) acc =
      loadEditSections rest (pyInsert acc key (normalizeRequired d).1) := by
  simp [loadEditSections, hp, hm]

theorem loadEditSections_step_bad (key : Str) (d : PyDict PyVal)
    (rest : List (Str × PyVal)) (acc : PyDict Sec)
    (hp : ("Edit_".data).isPrefixOf key = true)
    (hm : (normalizeRequired d).2.isEmpty = false) :
    loadEditSections ((key, .dict d) :: rest) acc =
      .error (.missingFields key (normalizeRequired d).2) := by
  simp [loadEditSections, hp, hm]

theorem loadEditSections_step_list (key : Str) (vs : List PyVal)
    (rest : List (Str × PyVal)) (acc : PyDict Sec)
    (hp : ("Edit_".data).isPrefixOf key = true) :
    loadEditSections ((key, .list vs) :: rest) acc =
      if REQUIRED_FIELDS.any (fun f => strTestsIn f (.list vs)) then
        .error (.typeError key)
      else .error (.missingFields key REQUIRED_FIELDS) := by
  simp [loadEditSections, hp]

theorem loadEditSections_step_str (key : Str) (s : Str)
    (rest : List (Str × PyVal)) (acc : PyDict Sec)
    (hp : ("Edit_".data).isPrefixOf key = true) :
    loadEditSections ((key, .str s) :: rest) acc =
      if REQUIRED_FIELDS.any (fun f => strTestsIn f (.str s)) then
        .error (.typeError key)
      else .error (.missingFields key REQUIRED_FIELDS) := by
  simp [loadEditSections, hp]

theorem loadEditSections_step_int (key : Str) (n : Int)
    (rest : List (Str × PyVal)) (acc : PyDict Sec)
    (hp : ("Edit_".data).isPrefixOf key = true) :
    loadEditSections ((key, .int n) :: rest) acc =
      .error (.typeError key) := by
  simp [loadEditSections, hp]

theorem loadEditSections_good (items : List (Str × PyVal))
    (acc : PyDict Sec) (parsed : PyDict Sec)
    (hacc : ∀ k s, (k, s) ∈ acc → goodSec s)
    (h : loadEditSections items acc = .ok parsed) :
    ∀ k s, (k, s) ∈ parsed → goodSec s := by
  induction items generalizing acc with
  | nil =>
      simp only [loadEditSections] at h
      cases h
      exact hacc
  | cons hd rest ih =>
      obtain ⟨key, val⟩ := hd
      cases hp : ("Edit_".data).isPrefixOf key with
      | false =>
          rw [loadEditSections_step_skip key val rest acc hp] at h
          exact ih _ hacc h
      | true =>
          cases val with
          | dict d =>
              cases hm : (normalizeRequired d).2.isEmpty with
              | true =>
                  rw [loadEditSections_step_ok key d rest acc hp hm] at h
                  refine ih _ ?_ h
                  intro k s hks
                  rcases mem_pyInsert _ _ _ _ _ hks with hin | ⟨_, hs⟩
                  · exact hacc k s hin
                  · exact hs ▸ normalizeRequired_good d hm
              | false =>
                  rw [loadEditSections_step_bad key d rest acc hp hm] at h
                  simp at h
          | list vs =>
              rw [loadEditSections_step_list key vs rest acc hp] at h
              by_cases ha :
                  REQUIRED_FIELDS.any (fun f => strTestsIn f (.list vs))
              · simp [ha] at h
              · simp [ha] at h
          | str s =>
              rw [loadEditSections_step_str key s rest acc hp] at h
              by_cases ha : REQUIRED_FIELDS.any (fun f => strTestsIn f (.str s))
              · simp [ha] at h
              · simp [ha] at h
          | int n =>
              rw [loadEditSections_step_int key n rest acc hp] at h
              simp at h

theorem loadFlatSections_step_ok (key : Str) (d : PyDict PyVal)
    (rest : List (Str × PyVal)) (acc : PyDict Sec)
    (hm : (normalizeRequired d).2.isEmpty = true) :
    loadFlatSections ((key, .dict d) :: rest) acc =
      loadFlatSections rest (pyInsert acc key (normalizeRequired d).1) := by
  simp [loadFlatSections, hm]

theorem loadFlatSections_step_bad (key : Str) (d : PyDict PyVal)
    (rest : List (Str × PyVal)) (acc : PyDict Sec)
    (hm : (normalizeRequired d).2.isEmpty = false) :
    loadFlatSections ((key, .dict d) :: rest) acc =
      .error (.missingFields key (normalizeRequired d).2) := by
  simp [loadFlatSections, hm]

theorem loadFlatSections_good (items : List (Str × PyVal))
    (acc : PyDict Sec) (parsed : PyDict Sec)
    (hacc : ∀ k s, (k, s) ∈ acc → goodSec s)
    (h : loadFlatSections items acc = .ok parsed) :
    ∀ k s, (k, s) ∈ parsed → goodSec s := by
  induction items generalizing acc with
  | nil =>
      simp only [loadFlatSections] at h
      cases h
      exact hacc
  | cons hd rest ih =>
      obtain ⟨key, val⟩ := hd
      cases val with
      | dict d =>
          cases hm : (normalizeRequired d).2.isEmpty with
          | true =>
              rw [loadFlatSections_step_ok key d rest acc hm] at h
              refine ih _ ?_ h
              intro k s hks
              rcases mem_pyInsert _ _ _ _ _ hks with hin | ⟨_, hs⟩
              · exact hacc k s hin
              · exact hs ▸ normalizeRequired_good d hm
          | false =>
              rw [loadFlatSections_step_bad key d rest acc hm] at h
              simp at h
      | str s => exact ih _ hacc (by simpa only [loadFlatSections] using h)
      | int n => exact ih _ hacc (by simpa only [loadFlatSections] using h)
      | list vs => exact ih _ hacc (by simpa only [loadFlatSections] using h)

theorem loadEditSections_err (items : List (Str × PyVal))
    (acc : PyDict Sec) (k : Str) (m : List Str)
    (h : loadEditSections items acc = .error (.missingFields k m)) :
    ∃ v, (k, v) ∈ items ∧ m = missingRequired v ∧ m ≠ [] := by
  induction items generalizing acc with
  | nil => simp [loadEditSections] at h
  | cons hd rest ih =>
      obtain ⟨key, val⟩ := hd
      cases hp : ("Edit_".data).isPrefixOf key with
      | false =>
          rw [loadEditSections_step_skip key val rest acc hp] at h
          obtain ⟨v, hv, hm, hne⟩ := ih _ h
          exact ⟨v, List.mem_cons_of_mem _ hv, hm, hne⟩
      | true =>
          cases val with
          | dict d =>
              cases hm : (normalizeRequired d).2.isEmpty with
              | true =>
                  rw [loadEditSections_step_ok key d rest acc hp hm] at h
                  obtain ⟨v, hv, hm2, hne⟩ := ih _ h
                  exact ⟨v, List.mem_cons_of_mem _ hv, hm2, hne⟩
              | false =>
                  rw [loadEditSections_step_bad key d rest acc hp hm] at h
                  simp only [Except.error.injEq, LoadError.missingFields.injEq] at h
                  obtain ⟨hk, hm2⟩ := h
                  subst hk
                  refine ⟨.dict d, List.mem_cons_self _ _, ?_, ?_⟩
                  · rw [← hm2, missingRequired, normalizeRequired,
                      normalizeFields_miss]
                    simp
                  · rw [← hm2]
                    rw [normalizeRequired] at hm
                    simpa using hm
          | list vs =>
              rw [loadEditSections_step_list key vs rest acc hp] at h
              by_cases ha :
                  REQUIRED_FIELDS.any (fun f => strTestsIn f (.list vs))
              · simp [ha] at h
              · rw [if_neg ha] at h
                simp only [Except.error.injEq,
                  LoadError.missingFields.injEq] at h
                obtain ⟨hk, hm2⟩ := h
                subst hk
                exact ⟨.list vs, List.mem_cons_self _ _, by simp [← hm2, missingRequired],
                  by rw [← hm2]; decide⟩
          | str s =>
              rw [loadEditSections_step_str key s rest acc hp] at h
              by_cases ha : REQUIRED_FIELDS.any (fun f => strTestsIn f (.str s))
              · simp [ha] at h
              · rw [if_neg ha] at h
                simp only [Except.error.injEq,
                  LoadError.missingFields.injEq] at h
                obtain ⟨hk, hm2⟩ := h
                subst hk
                exact ⟨.str s, List.mem_cons_self _ _, by simp [← hm2, missingRequired],
                  by rw [← hm2]; decide⟩
          | int n =>
              rw [loadEditSections_step_int key n rest acc hp] at h
              simp at h

theorem loadFlatSections_err (items : List (Str × PyVal))
    (acc : PyDict Sec) (k : Str) (m : List Str)
    (h : loadFlatSections items acc = .error (.missingFields k m)) :
    ∃ v, (k, v) ∈ items ∧ m = missingRequired v ∧ m ≠ [] := by
  induction items generalizing acc with
  | nil => simp [loadFlatSections] at h
  | cons hd rest ih =>
      obtain ⟨key, val⟩ := hd
      cases val with
      | dict d =>
          cases hm : (normalizeRequired d).2.isEmpty with
          | true =>
              rw [loadFlatSections_step_ok key d rest acc hm] at h
              obtain ⟨v, hv, hm2, hne⟩ := ih _ h
              exact ⟨v, List.mem_cons_of_mem _ hv, hm2, hne⟩
          | false =>
              rw [loadFlatSections_step_bad key d rest acc hm] at h
              simp only [Except.error.injEq, LoadError.missingFields.injEq] at h
              obtain ⟨hk, hm2⟩ := h
              subst hk
              refine ⟨.dict d, List.mem_cons_self _ _, ?_, ?_⟩
              · rw [← hm2, missingRequired, normalizeRequired,
                  normalizeFields_miss]
                simp
              · rw [← hm2]
                rw [normalizeRequired] at hm
                simpa using hm
      | str s =>
          obtain ⟨v, hv, hm2, hne⟩ := ih _ (by simpa only [loadFlatSections] using h)
          exact ⟨v, List.mem_cons_of_mem _ hv, hm2, hne⟩
      | int n =>
          obtain ⟨v, hv, hm2, hne⟩ := ih _ (by simpa only [loadFlatSections] using h)
          exact ⟨v, List.mem_cons_of_mem _ hv, hm2, hne⟩
      | list vs =>
          obtain ⟨v, hv, hm2, hne⟩ := ih _ (by simpa only [loadFlatSections] using h)
          exact ⟨v, List.mem_cons_of_mem _ hv, hm2, hne⟩

theorem loadEditSections_not_config (items : List (Str × PyVal))
    (acc : PyDict Sec) (m : List Str)
    (h : loadEditSections items acc = .error (.configMissingFields m)) :
    False := by
  induction items generalizing acc with
  | nil => simp [loadEditSections] at h
  | cons hd rest ih =>
      obtain ⟨key, val⟩ := hd
      cases hp : ("Edit_".data).isPrefixOf key with
      | false =>
          rw [loadEditSections_step_skip key val rest acc hp] at h
          exact ih _ h
      | true =>
          cases val with
          | dict d =>
              cases hm : (normalizeRequired d).2.isEmpty with
              | true =>
                  rw [loadEditSections_step_ok key d rest acc hp hm] at h
                  exact ih _ h
              | false =>
                  rw [loadEditSections_step_bad key d rest acc hp hm] at h
                  simp at h
          | list vs =>
              rw [loadEditSections_step_list key vs rest acc hp] at h
              by_cases ha :
                  REQUIRED_FIELDS.any (fun f => strTestsIn f (.list vs))
              · simp [ha] at h
              · simp [ha] at h
          | str s =>
              rw [loadEditSections_step_str key s rest acc hp] at h
              by_cases ha : REQUIRED_FIELDS.any (fun f => strTestsIn f (.str s))
              · simp [ha] at h
              · simp [ha] at h
          | int n =>
              rw [loadEditSections_step_int key n rest acc hp] at h
              simp at h

theorem loadFlatSections_not_config (items : List (Str × PyVal))
    (acc : PyDict Sec) (m : List Str)
    (h : loadFlatSections items acc = .error (.configMissingFields m)) :
    False := by
  induction items generalizing acc with
  | nil => simp [loadFlatSections] at h
  | cons hd rest ih =>
      obtain ⟨key, val⟩ := hd
      cases val with
      | dict d =>
          cases hm : (normalizeRequired d).2.isEmpty with
          | true =>
              rw [loadFlatSections_step_ok key d rest acc hm] at h
              exact ih _ h
          | false =>
              rw [loadFlatSections_step_bad key d rest acc hm] at h
              simp at h
      | str s => exact ih _ (by simpa only [loadFlatSections] using h)
      | int n => exact ih _ (by simpa only [loadFlatSections] using h)
      | list vs => exact ih _ (by simpa only [loadFlatSections] using h)

theorem load_user_config_edit_eq (data : PyDict PyVal)
    (hnm : data.any (fun p => ("Model_".data).isPrefixOf p.1) = false)
    (hE : data.any (fun p => ("Edit_".data).isPrefixOf p.1) = true) :
    load_user_config data =
      match loadEditSections data [] with
      | .error e => .error e
      | .ok parsed =>
          if parsed.isEmpty then .error .noValidEditSections
          else .ok parsed := by
  simp [load_user_config, hnm, hE]

theorem load_user_config_flat_eq (data : PyDict PyVal)
    (hnm : data.any (fun p => ("Model_".data).isPrefixOf p.1) = false)
    (hE : data.any (fun p => ("Edit_".data).isPrefixOf p.1) = false)
    (hF : data.all
      (fun p => match p.2 with | .dict _ => true | _ => false) = true) :
    load_user_config data =
      match loadFlatSections data [] with
      | .error e => .error e
      | .ok parsed =>
          if parsed.isEmpty then .error .noValidSections
          else .ok parsed := by
  simp [load_user_config, hnm, hE, hF]

theorem load_user_config_single_eq (data : PyDict PyVal)
    (hnm : data.any (fun p => ("Model_".data).isPrefixOf p.1) = false)
    (hE : data.any (fun p => ("Edit_".data).isPrefixOf p.1) = false)
    (hF : data.all
      (fun p => match p.2 with | .dict _ => true | _ => false) = false) :
    load_user_config data =
      (if (normalizeRequired data).2.isEmpty then
        .ok [("Edit_1".data, (normalizeRequired data).1)]
      else .error (.configMissingFields (normalizeRequired data).2)) := by
  simp [load_user_config, hnm, hE, hF]

/-- C2 (amended).  For every configuration document handled by one of the
validated shapes -- `Edit_`-prefixed, generic mapping-of-mappings, or
single-section -- loading validates: success means every returned section
maps every required field to a non-empty list; a missing-fields failure
names one section of the document together with exactly its
missing-or-empty required fields, all at once.  The claim's inclusion of
the `Model_`-prefixed shape is wrong: that branch (core.py lines 112-126)
performs no required-field validation at all, see the counterexample. -/
theorem load_user_config_validates (data : PyDict PyVal)
    (hnm : data.any (fun p => ("Model_".data).isPrefixOf p.1) = false) :
    (∀ parsed, load_user_config data = .ok parsed →
      ∀ k s, (k, s) ∈ parsed →
        ∀ f ∈ REQUIRED_FIELDS, ∃ vs, vs ≠ [] ∧ pyGet s f = some (.list vs)) ∧
    (∀ k m, load_user_config data = .error (.missingFields k m) →
      ∃ v, (k, v) ∈ data ∧ m = missingRequired v ∧ m ≠ []) ∧
    (∀ m, load_user_config data = .error (.configMissingFields m) →
      m = REQUIRED_FIELDS.filter (fieldBad data) ∧ m ≠ []) := by
  by_cases hE : data.any (fun p => ("Edit_".data).isPrefixOf p.1)
  · -- Edit_ branch
    have heq := load_user_config_edit_eq data hnm hE
    refine ⟨?_, ?_, ?_⟩
    · intro parsed hok k s hks f hf
      rw [heq] at hok
      cases hLE : loadEditSections data [] with
      | error e => simp [hLE] at hok
      | ok p0 =>
          simp only [hLE] at hok
          by_cases hpe : p0.isEmpty
          · simp [hpe] at hok
          · rw [if_neg hpe] at hok
            have hps : p0 = parsed := by injection hok
            rw [← hps] at hks
            exact loadEditSections_good data [] p0 (by simp) hLE k s hks f hf
    · intro k m herr
      rw [heq] at herr
      cases hLE : loadEditSections data [] with
      | error e =>
          simp only [hLE] at herr
          simp only [Except.error.injEq] at herr
          exact loadEditSections_err data [] k m (by rw [hLE, herr])
      | ok p0 =>
          simp only [hLE] at herr
          by_cases hpe : p0.isEmpty
          · simp [hpe] at herr
          · simp [hpe] at herr
    · intro m herr
      rw [heq] at herr
      cases hLE : loadEditSections data [] with
      | error e =>
          simp only [hLE] at herr
          simp only [Except.error.injEq] at herr
          exact absurd (by rw [hLE, herr] :
            loadEditSections data [] = .error (.configMissingFields m))
            (fun hcc => loadEditSections_not_config data [] m hcc)
      | ok p0 =>
          simp only [hLE] at herr
          by_cases hpe : p0.isEmpty
          · simp [hpe] at herr
          · simp [hpe] at herr
  · have hEf : data.any (fun p => ("Edit_".data).isPrefixOf p.1) = false := by
      simpa using hE
    by_cases hF : data.all
        (fun p => match p.2 with | .dict _ => true | _ => false)
    · -- generic flat branch
      have heq := load_user_config_flat_eq data hnm hEf hF
      refine ⟨?_, ?_, ?_⟩
      · intro parsed hok k s hks f hf
        rw [heq] at hok
        cases hLF : loadFlatSections data [] with
        | error e => simp [hLF] at hok
        | ok p0 =>
            simp only [hLF] at hok
            by_cases hpe : p0.isEmpty
            · simp [hpe] at hok
            · rw [if_neg hpe] at hok
              have hps : p0 = parsed := by injection hok
              rw [← hps] at hks
              exact loadFlatSections_good data [] p0 (by simp) hLF k s hks f hf
      · intro k m herr
        rw [heq] at herr
        cases hLF : loadFlatSections data [] with
        | error e =>
            simp only [hLF] at herr
            simp only [Except.error.injEq] at herr
            exact loadFlatSections_err data [] k m (by rw [hLF, herr])
        | ok p0 =>
            simp only [hLF] at herr
            by_cases hpe : p0.isEmpty
            · simp [hpe] at herr
            · simp [hpe] at herr
      · intro m herr
        rw [heq] at herr
        cases hLF : loadFlatSections data [] with
        | error e =>
            simp only [hLF] at herr
            simp only [Except.error.injEq] at herr
            exact absurd (by rw [hLF, herr] :
              loadFlatSections data [] = .error (.configMissingFields m))
              (fun hcc => loadFlatSections_not_config data [] m hcc)
        | ok p0 =>
            simp only [hLF] at herr
            by_cases hpe : p0.isEmpty
            · simp [hpe] at herr
            · simp [hpe] at herr
    · -- single-section branch
      have hFf : data.all
          (fun p => match p.2 with | .dict _ => true | _ => false) = false := by
        simpa using hF
      have heq := load_user_config_single_eq data hnm hEf hFf
      refine ⟨?_, ?_, ?_⟩
      · intro parsed hok k s hks f hf
        rw [heq] at hok
        by_cases hpe : (normalizeRequired data).2.isEmpty
        · rw [if_pos hpe] at hok
          cases hok
          rcases List.mem_singleton.mp hks with hks2
          obtain ⟨h1, h2⟩ := Prod.mk.injEq .. ▸ hks2
          subst h2
          exact normalizeRequired_good data hpe f hf
        · simp [hpe] at hok
      · intro k m herr
        rw [heq] at herr
        by_cases hpe : (normalizeRequired data).2.isEmpty
        · simp [hpe] at herr
        · simp [hpe] at herr
      · intro m herr
        rw [heq] at herr
        by_cases hpe : (normalizeRequired data).2.isEmpty
        · simp [hpe] at herr
        · rw [if_neg hpe] at herr
          simp only [Except.error.injEq,
            LoadError.configMissingFields.injEq] at herr
          constructor
          · rw [← herr, normalizeRequired, normalizeFields_miss]
            simp
          · rw [← herr]
            simpa [normalizeRequired] using hpe

/-- C2 counterexample.  For the `Model_`-shaped document whose single
section is the empty mapping, every required field is absent, yet
`load_user_config` succeeds and returns the empty section instead of
failing with a missing-field error -- refuting the claim for the
`Model_`-prefixed shape. -/
theorem load_user_config_model_counterexample :
    load_user_config [("Model_1".data, .dict [])] =
      .ok [("Model_1".data, ([] : Sec))] ∧
    pyGet ([] : Sec) "HCID".data = none ∧
    "HCID".data ∈ REQUIRED_FIELDS := by
  refine ⟨rfl, rfl, by decide⟩

/-- Concrete document for the C2 witness: a valid `Edit_`-shaped section
that populates every required field. -/
def sampleEditDoc : PyDict PyVal :=
  [("Edit_1".data, .dict
    [("PRICNG_ZIP_STATE".data, .str "TN,KL".data),
     ("CLM_TYPE".data, .str "P".data),
     ("SRVC_FROM_DT".data, .str "04/20/2025".data),
     ("HCID".data, .str "H1,H2".data),
     ("PAT_BRTH_DT".data, .str "01/01/1990".data),
     ("PAT_FRST_NME".data, .str "Mohan".data),
     ("PAT_LAST_NME".data, .str "Kumar".data),
     ("ClaimDetails".data, .list [.str "x".data])])]

/-- Witness for C2 at `sampleEditDoc`. -/
theorem load_user_config_validates_witness :
    sampleEditDoc.any (fun p => ("Model_".data).isPrefixOf p.1) = false ∧
    ((∀ parsed, load_user_config sampleEditDoc = .ok parsed →
      ∀ k s, (k, s) ∈ parsed →
        ∀ f ∈ REQUIRED_FIELDS, ∃ vs, vs ≠ [] ∧ pyGet s f = some (.list vs)) ∧
    (∀ k m, load_user_config sampleEditDoc = .error (.missingFields k m) →
      ∃ v, (k, v) ∈ sampleEditDoc ∧ m = missingRequired v ∧ m ≠ []) ∧
    (∀ m, load_user_config sampleEditDoc = .error (.configMissingFields m) →
      m = REQUIRED_FIELDS.filter (fieldBad sampleEditDoc) ∧ m ≠ [])) :=
  ⟨by decide, load_user_config_validates sampleEditDoc (by decide)⟩

/-! ## `merge_brd_with_master` (src/src/mockgen/core.py lines 204-222)

```
def merge_brd_with_master(master_data, brd_data):
    merged = master_data.copy()
    for model_key, model_data in brd_data.items():
        if model_key not in merged:
            merged[model_key] = {}
        if "user_profile" in master_data:
            for field, values in master_data["user_profile"].items():
                merged[model_key][field] = values
        for field, values in model_data.items():
            merged[model_key][field] = values
    return merged
```

`master_data.copy()` is a shallow copy, so `master_data["user_profile"]`
aliases `merged["user_profile"]`; the embedding therefore reads the
profile fields from the current `merged` (they only differ when the user
document itself contains a `user_profile` section).  The embedding covers
documents whose top-level values are objects; for others Python raises
`TypeError` on the inner assignment. -/

/-- Overlay `overlay`'s fields onto `base`, one dict assignment at a
time (the `for field, values in ...: d[field] = values` loop). -/
def pyUpdate (base overlay : Sec) : Sec :=
  overlay.foldl (fun s q => pyInsert s q.1 q.2) base

/-- One iteration of the merge loop for the user entry `p`. -/
def mergeStep (master : PyDict Sec) (merged : PyDict Sec) (p : Str × Sec) :
    PyDict Sec :=
  let cur := (pyGet merged p.1).getD []
  let withProfile :=
    if "user_profile".data ∈ pyKeys master then
      pyUpdate cur ((pyGet merged "user_profile".data).getD [])
    else cur
  pyInsert merged p.1 (pyUpdate withProfile p.2)

def merge_brd_with_master (master brd : PyDict Sec) : PyDict Sec :=
  brd.foldl (mergeStep master) master

/-- The master template's default fields. -/
def profileOf (master : PyDict Sec) : Sec :=
  if "user_profile".data ∈ pyKeys master then
    (pyGet master "user_profile".data).getD []
  else []

theorem merge_fold_get_not_mem (master : PyDict Sec)
    (items : List (Str × Sec)) (acc : PyDict Sec) (k : Str)
    (hk : k ∉ pyKeys items) :
    pyGet (items.foldl (mergeStep master) acc) k = pyGet acc k := by
  induction items generalizing acc with
  | nil => rfl
  | cons hd rest ih =>
      obtain ⟨k1, d1⟩ := hd
      rw [pyKeys_cons, List.mem_cons] at hk
      push_neg at hk
      have h1 : k1 ≠ k := Ne.symm hk.1
      rw [List.foldl_cons, ih _ hk.2]
      show pyGet (pyInsert acc k1 _) k = pyGet acc k
      exact pyGet_insert_ne _ _ _ _ h1

theorem merge_fold_get (master : PyDict Sec) (items : List (Str × Sec))
    (acc : PyDict Sec) (k : Str) (d : Sec)
    (hmem : (k, d) ∈ items) (hnd : (pyKeys items).Nodup)
    (hup : "user_profile".data ∉ pyKeys items)
    (hprof : pyGet acc "user_profile".data =
      pyGet master "user_profile".data)
    (hcur : pyGet acc k = pyGet master k) :
    pyGet (items.foldl (mergeStep master) acc) k =
      some (pyUpdate (pyUpdate ((pyGet master k).getD [])
        (profileOf master)) d) := by
  induction items generalizing acc with
  | nil => simp at hmem
  | cons hd rest ih =>
      obtain ⟨k1, d1⟩ := hd
      rw [pyKeys_cons, List.nodup_cons] at hnd
      rw [pyKeys_cons, List.mem_cons] at hup
      push_neg at hup
      rcases List.mem_cons.mp hmem with hmem1 | hmem2
      · obtain ⟨hk1, hd1⟩ := Prod.mk.injEq .. ▸ hmem1
        subst hk1
        subst hd1
        have hknr : k ∉ pyKeys rest := hnd.1
        have hpval : (if "user_profile".data ∈ pyKeys master then
            pyUpdate ((pyGet acc k).getD [])
              ((pyGet acc "user_profile".data).getD [])
          else ((pyGet acc k).getD [])) =
            pyUpdate ((pyGet master k).getD []) (profileOf master) := by
          by_cases hpm : "user_profile".data ∈ pyKeys master
          · rw [if_pos hpm, hprof, hcur, profileOf, if_pos hpm]
          · rw [if_neg hpm, hcur, profileOf, if_neg hpm]
            show (pyGet master k).getD [] =
              pyUpdate ((pyGet master k).getD []) []
            rfl
        rw [List.foldl_cons, merge_fold_get_not_mem master rest _ k hknr]
        show pyGet (pyInsert acc k
            (pyUpdate (if "user_profile".data ∈ pyKeys master then
              pyUpdate ((pyGet acc k).getD [])
                ((pyGet acc "user_profile".data).getD [])
            else ((pyGet acc k).getD [])) d)) k =
          some (pyUpdate (pyUpdate ((pyGet master k).getD [])
            (profileOf master)) d)
        rw [pyGet_insert_self, hpval]
      · have hk1k : k1 ≠ k := by
          intro he
          subst he
          have hm : k1 ∈ List.map Prod.fst rest :=
            List.mem_map_of_mem Prod.fst hmem2
          exact hnd.1 hm
        rw [List.foldl_cons]
        refine ih _ hmem2 hnd.2 hup.2 ?_ ?_
        · show pyGet (pyInsert acc k1 _) "user_profile".data = _
          have h1 : k1 ≠ "user_profile".data := Ne.symm hup.1
          rw [pyGet_insert_ne _ _ _ _ h1, hprof]
        · show pyGet (pyInsert acc k1 _) k = _
          rw [pyGet_insert_ne _ _ _ _ hk1k, hcur]

/-- C3 (amended).  For every master and user document (with distinct user
section keys, none named `user_profile`), the merged entry for a user
section key `k` is built by starting from the master's own section under
`k` (empty when the master has none), overlaying every `user_profile`
field of the master, and then overlaying every field of the user section
-- so a user value wins over both, but fields of a master section with
the same key survive (the claim overlooked the latter, see the
counterexample). -/
theorem merge_brd_with_master_spec (master brd : PyDict Sec)
    (hnd : (pyKeys brd).Nodup) (hup : "user_profile".data ∉ pyKeys brd) :
    ∀ k d, (k, d) ∈ brd →
      pyGet (merge_brd_with_master master brd) k =
        some (pyUpdate (pyUpdate ((pyGet master k).getD [])
          (profileOf master)) d) := by
  intro k d hmem
  exact merge_fold_get master brd master k d hmem hnd hup rfl rfl

/-- C3 counterexample.  With `master = {"user_profile": {"a": "X"},
"M": {"c": "W"}}` and `user = {"M": {"a": "Y", "b": "Z"}}`, the merged
`M` entry also keeps the master section field `c`, so it is NOT the
mapping built from `user_profile` defaults plus user fields alone (which
would lack `c`). -/
theorem merge_brd_with_master_counterexample :
    pyGet (merge_brd_with_master
        [("user_profile".data, [("a".data, PyVal.str "X".data)]),
         ("M".data, [("c".data, PyVal.str "W".data)])]
        [("M".data, [("a".data, PyVal.str "Y".data),
                     ("b".data, PyVal.str "Z".data)])]) "M".data =
      some [("c".data, PyVal.str "W".data), ("a".data, PyVal.str "Y".data),
            ("b".data, PyVal.str "Z".data)] ∧
    pyGet (pyUpdate (pyUpdate []
        [("a".data, PyVal.str "X".data)])
        [("a".data, PyVal.str "Y".data), ("b".data, PyVal.str "Z".data)])
      "c".data = none := by
  exact ⟨rfl, rfl⟩

/-- Witness for C3 at the spec's own merge-precedence example: the merged
`Model_1` entry is exactly `{"a": "Y", "b": "Z"}`. -/
theorem merge_brd_with_master_witness :
    pyGet (merge_brd_with_master
        [("user_profile".data, [("a".data, PyVal.str "X".data)])]
        [("Model_1".data, [("a".data, PyVal.str "Y".data),
                           ("b".data, PyVal.str "Z".data)])]) "Model_1".data =
      some (pyUpdate (pyUpdate
        ((pyGet [("user_profile".data,
            [("a".data, PyVal.str "X".data)])] "Model_1".data).getD [])
        (profileOf [("user_profile".data,
            [("a".data, PyVal.str "X".data)])]))
        [("a".data, PyVal.str "Y".data), ("b".data, PyVal.str "Z".data)]) ∧
    pyUpdate (pyUpdate
        ((pyGet [("user_profile".data,
            [("a".data, PyVal.str "X".data)])] "Model_1".data).getD [])
        (profileOf [("user_profile".data,
            [("a".data, PyVal.str "X".data)])]))
        [("a".data, PyVal.str "Y".data), ("b".data, PyVal.str "Z".data)] =
      [("a".data, PyVal.str "Y".data), ("b".data, PyVal.str "Z".data)] :=
  ⟨merge_brd_with_master_spec
      [("user_profile".data, [("a".data, PyVal.str "X".data)])]
      [("Model_1".data, [("a".data, PyVal.str "Y".data),
                         ("b".data, PyVal.str "Z".data)])]
      (by decide) (by decide) "Model_1".data
      [("a".data, PyVal.str "Y".data), ("b".data, PyVal.str "Z".data)]
      (List.mem_singleton.mpr rfl),
    rfl⟩

/-! ## Record generators (src/src/mockgen/core.py lines 225-324, 365-448)

`random.choice(pool)` is modelled as `pyChoice r n pool`: the `n`-th value
of the stream `r`, reduced modulo the pool length, indexes the pool.  Each
call consumes one stream position; the functions thread the position
counter.  Every run of the Python generator corresponds to some stream. -/

/-- Model of `random.choice` on a non-empty list, driven by stream position `n`. -/
def pyChoice (r : Nat → Nat) (n : Nat) (l : List PyVal) : PyVal :=
  l.getD (r n % l.length) (.str [])

/-- Whether a pool's first element is a mapping
(`values and isinstance(values[0], dict)`). -/
def headIsDict : List PyVal → Bool
  | .dict _ :: _ => true
  | _ => false

/-- Generic record-building loop: iterate the section's fields in order,
select a value per field with `sel` (threading the stream counter), and
assign it into the record dict.  `none` propagates a Python exception. -/
def buildRecord (sel : Str → PyVal → Nat → Option (PyVal × Nat)) :
    List (Str × PyVal) → PyDict PyVal → Nat → Option (PyDict PyVal × Nat)
  | [], acc, n => some (acc, n)
  | (f, v) :: rest, acc, n =>
      match sel f v n with
      | none => none
      | some (x, n2) => buildRecord sel rest (pyInsert acc f x) n2

/-- Per-field selection inside one nested `ClaimDetails` mapping
(core.py lines 249-258, 301-310, 375-384, identical code): non-empty list
pools get a random draw, strings pass verbatim, anything else becomes the
empty string. -/
def nestedRandomSel (r : Nat → Nat) : Str → PyVal → Nat → Option (PyVal × Nat) :=
  fun _ v n =>
    match v with
    | .list nvs =>
        if nvs.isEmpty then some (.str [], n)
        else some (pyChoice r n nvs, n + 1)
    | .str s => some (.str s, n)
    | _ => some (.str [], n)

/-- Process every element of the `ClaimDetails` pool
(`for claim_detail in values:`).  A non-mapping element makes
`claim_detail.items()` raise `AttributeError`, modelled by `none`. -/
def processClaimDetails (r : Nat → Nat) :
    List PyVal → Nat → Option (List PyVal × Nat)
  | [], n => some ([], n)
  | .dict cd :: rest, n =>
      match buildRecord (nestedRandomSel r) cd [] n with
      | none => none
      | some (pd, n2) =>
          match processClaimDetails r rest n2 with
          | none => none
          | some (ds, n3) => some (.dict pd :: ds, n3)
  | _ :: _, _ => none

/-- Per-field selection of `generate_model_outputs` (core.py lines
241-269) and `generate_model_records` (lines 293-321), identical code:
non-empty list pools get a random draw, except the field literally named
`ClaimDetails` whose first element is a mapping, which gets the nested
treatment; strings pass verbatim; anything else becomes the empty
string. -/
def selectFieldValue (r : Nat → Nat) (field : Str) (v : PyVal) (n : Nat) :
    Option (PyVal × Nat) :=
  match v with
  | .list vs =>
      if vs.isEmpty then some (.str [], n)
      else if field = "ClaimDetails".data ∧ headIsDict vs = true then
        (processClaimDetails r vs n).map (fun p => (.list p.1, p.2))
      else some (pyChoice r n vs, n + 1)
  | .str s => some (.str s, n)
  | _ => some (.str [], n)

/-- Per-field selection of `_select_random_record_from_edit` (core.py
lines 367-391).  Unlike `selectFieldValue`, the `else` branch maps EVERY
non-list value -- scalar strings included -- to the empty string: the
function has no `isinstance(values, str)` arm. -/
def selectEditFieldValue (r : Nat → Nat) (field : Str) (v : PyVal) (n : Nat) :
    Option (PyVal × Nat) :=
  match v with
  | .list vs =>
      if vs.isEmpty then some (.str [], n)
      else if field = "ClaimDetails".data ∧ headIsDict vs = true then
        (processClaimDetails r vs n).map (fun p => (.list p.1, p.2))
      else some (pyChoice r n vs, n + 1)
  | _ => some (.str [], n)

/-- Embedding of `generate_model_records` (core.py lines 287-324): `count` records from
one section, each a fresh set of draws. -/
def generate_model_records (r : Nat → Nat) (md : Sec) :
    Nat → Nat → Option (List (PyDict PyVal) × Nat)
  | 0, n => some ([], n)
  | c + 1, n =>
      match buildRecord (selectFieldValue r) md [] n with
      | none => none
      | some (rec, n2) =>
          match generate_model_records r md c n2 with
          | none => none
          | some (recs, n3) => some (rec :: recs, n3)

/-- The model list defaulting of `generate_model_outputs` (core.py lines
227-229). -/
def selectedOrAll (mergedConfig : PyDict Sec) :
    Option (List Str) → List Str
  | some models => models
  | none =>
      (pyKeys mergedConfig).filter
        (fun k => !(("user_profile".data).isPrefixOf k))

def generate_model_outputs_go (r : Nat → Nat) (cfg : PyDict Sec) :
    List Str → PyDict (PyDict PyVal) → Nat →
      Option (PyDict (PyDict PyVal) × Nat)
  | [], acc, n => some (acc, n)
  | m :: rest, acc, n =>
      match pyGet cfg m with
      | none => generate_model_outputs_go r cfg rest acc n
      | some md =>
          match buildRecord (selectFieldValue r) md [] n with
          | none => none
          | some (rec, n2) =>
              generate_model_outputs_go r cfg rest (pyInsert acc m rec) n2

/-- Embedding of `generate_model_outputs` (core.py lines 225-273): a record per
selected model present in the configuration. -/
def generate_model_outputs (r : Nat → Nat) (cfg : PyDict Sec)
    (selectedModels : Option (List Str)) (n : Nat) :
    Option (PyDict (PyDict PyVal) × Nat) :=
  generate_model_outputs_go r cfg (selectedOrAll cfg selectedModels) [] n

/-- Embedding of `_select_random_record_from_edit` (core.py lines 365-392). -/
def select_random_record_from_edit (r : Nat → Nat) (edit : Sec) (n : Nat) :
    Option (PyDict PyVal × Nat) :=
  buildRecord (selectEditFieldValue r) edit [] n

/-- Embedding of `_select_random_edit_and_record` (core.py lines 395-400):
`random.choice(list(edits.keys()))`, then a random record from that
section.  `random.choice` on an empty dict raises `IndexError` (`none`). -/
def select_random_edit_and_record (r : Nat → Nat) (edits : PyDict Sec)
    (n : Nat) : Option ((Str × PyDict PyVal) × Nat) :=
  if edits.isEmpty then none
  else
    let key := (pyKeys edits).getD (r n % (pyKeys edits).length) []
    match pyGet edits key with
    | none => none
    | some ed =>
        (select_random_record_from_edit r ed (n + 1)).map
          (fun p => ((key, p.1), p.2))

/-- The output key `f"{edit_key}_output_{i}"`. -/
def outputKey (key : Str) (i : Nat) : Str :=
  key ++ "_output_".data ++ natRepr i

def build_output_payload_go (r : Nat → Nat) (edits : PyDict Sec) :
    List Nat → PyDict (PyDict PyVal) → Nat →
      Option (PyDict (PyDict PyVal) × Nat)
  | [], acc, n => some (acc, n)
  | i :: rest, acc, n =>
      match select_random_edit_and_record r edits n with
      | none => none
      | some ((key, rec), n2) =>
          build_output_payload_go r edits rest
            (pyInsert acc (outputKey key i) rec) n2

/-- Embedding of `build_output_payload` (core.py lines 403-410): `max(1, count)`
records, each from a uniformly chosen section, keyed
`{edit_key}_output_{i}` for `i` in `[1, max(1, count)]`. -/
def build_output_payload (r : Nat → Nat) (edits : PyDict Sec)
    (count : Int) (n : Nat) : Option (PyDict (PyDict PyVal) × Nat) :=
  build_output_payload_go r edits (List.range' 1 (max 1 count).toNat) [] n

/-! ### Indexed generation (`build_indexed_records`, core.py 413-448) -/

/-- Map a fallible function over a list, failing on the first `none`
(the monadic map specialized to `Option`, with structural equations). -/
def mapOption {α β : Type} (g : α → Option β) : List α → Option (List β)
  | [] => some []
  | a :: rest =>
      match g a with
      | none => none
      | some b => (mapOption g rest).map (fun bs => b :: bs)

/-- Python `len(v)`; integers raise `TypeError`. -/
def pyLen : PyVal → Option Nat
  | .str s => some s.length
  | .list vs => some vs.length
  | .dict d => some d.length
  | .int _ => none

/-- Python `max` over a list of naturals (callers pass non-empty lists,
for which the 0 base is neutral). -/
def maxNat (l : List Nat) : Nat := l.foldr max 0

/-- Nested per-field selection of indexed mode (core.py lines 429-439):
`nested_values[idx % len(nested_values)]` for non-empty list pools,
strings verbatim, otherwise the empty string. -/
def indexedNestedSel (idx : Nat) : PyVal → PyVal
  | .list nvs =>
      if nvs.isEmpty then .str [] else nvs.getD (idx % nvs.length) (.str [])
  | .str s => .str s
  | _ => .str []

/-- One processed `ClaimDetails` element in indexed mode. -/
def processIndexedCD (idx : Nat) (cd : PyDict PyVal) : PyDict PyVal :=
  cd.foldl (fun acc q => pyInsert acc q.1 (indexedNestedSel idx q.2)) []

/-- Per-field selection of indexed mode (core.py lines 421-446): list
pools are indexed `idx % len`, the nested `ClaimDetails` field maps every
element (non-mapping elements raise, `none`), any non-list value --
strings included -- becomes the empty string. -/
def indexedSelect (idx : Nat) (field : Str) (v : PyVal) : Option PyVal :=
  match v with
  | .list vs =>
      if vs.isEmpty then some (.str [])
      else if field = "ClaimDetails".data ∧ headIsDict vs = true then
        (mapOption (fun cdv =>
          match cdv with
          | PyVal.dict cd =>
              (some (PyVal.dict (processIndexedCD idx cd)) : Option PyVal)
          | _ => none) vs).map PyVal.list
      else some (vs.getD (idx % vs.length) (.str []))
  | _ => some (.str [])

/-- Indexed selection in the interface of `buildRecord` (no stream). -/
def indexedSelBR (idx : Nat) : Str → PyVal → Nat → Option (PyVal × Nat) :=
  fun f v n => (indexedSelect idx f v).map (fun x => (x, n))

/-- Embedding of `build_indexed_records` (core.py lines 413-448): `KeyError` on an
absent required field and `TypeError` on an unsized one propagate as
`none`; otherwise one record per index below the maximum required-field
pool length. -/
def build_indexed_records (s : Sec) : Option (List (PyDict PyVal)) :=
  match mapOption (fun f => (pyGet s f).bind pyLen) REQUIRED_FIELDS with
  | none => none
  | some lengths =>
      if lengths.isEmpty then some []
      else
        mapOption
          (fun idx => (buildRecord (indexedSelBR idx) s [] 0).map Prod.fst)
          (List.range (maxNat lengths))

/-- The `--model` indexed branch of the CLI (src/src/mockgen/cli.py lines
185-194): outcome of running it on a section. -/
inductive CliOutcome where
  | fatal (modelName : Str)
  | files (payloads : List (PyDict (PyDict PyVal)))
  | crash

/-- cli.py lines 186-194: build indexed records; an empty result raises
`SystemExit` ("No records could be built for model ..."); otherwise one
payload file per record, keyed `{model}_output_{i}`. -/
def cliModelIndexedBranch (modelName : Str) (modelData : Sec) : CliOutcome :=
  match build_indexed_records modelData with
  | none => .crash
  | some records =>
      if records.isEmpty then .fatal modelName
      else
        .files (((List.range' 1 records.length).zip records).map
          (fun p => [(outputKey modelName p.1, p.2)]))

/-! ### Structural lemmas for the record builders -/

theorem mapOption_length {α β : Type} (g : α → Option β) (l : List α)
    (bs : List β) (h : mapOption g l = some bs) : bs.length = l.length := by
  induction l generalizing bs with
  | nil =>
      simp [mapOption] at h
      simp [← h]
  | cons a rest ih =>
      cases hg : g a with
      | none => simp [mapOption, hg] at h
      | some b =>
          simp only [mapOption, hg] at h
          cases hr : mapOption g rest with
          | none => simp [hr] at h
          | some bs2 =>
              simp [hr] at h
              simp [← h, ih bs2 hr]

theorem mapOption_get {α β : Type} (g : α → Option β) (l : List α)
    (bs : List β) (h : mapOption g l = some bs) (i : Nat)
    (hi : i < l.length) (hb : i < bs.length) :
    g (l.get ⟨i, hi⟩) = some (bs.get ⟨i, hb⟩) := by
  induction l generalizing bs i with
  | nil => simp at hi
  | cons a rest ih =>
      cases hg : g a with
      | none => simp [mapOption, hg] at h
      | some b =>
          simp only [mapOption, hg] at h
          cases hr : mapOption g rest with
          | none => simp [hr] at h
          | some bs2 =>
              simp [hr] at h
              subst h
              cases i with
              | zero => simpa using hg
              | succ j =>
                  simp only [List.get_cons_succ]
                  exact ih bs2 hr j (by simpa using hi)
                    (by simpa using hb)

theorem mapOption_some {α β : Type} (g : α → Option β) (l : List α)
    (h : ∀ a ∈ l, ∃ b, g a = some b) : ∃ bs, mapOption g l = some bs := by
  induction l with
  | nil => exact ⟨[], rfl⟩
  | cons a rest ih =>
      obtain ⟨b, hb⟩ := h a (List.mem_cons_self a rest)
      obtain ⟨bs, hbs⟩ := ih (fun x hx => h x (List.mem_cons_of_mem a hx))
      exact ⟨b :: bs, by simp [mapOption, hb, hbs]⟩

theorem mapOption_mem {α β : Type} (g : α → Option β) (l : List α)
    (bs : List β) (h : mapOption g l = some bs) (b : β) (hb : b ∈ bs) :
    ∃ a ∈ l, g a = some b := by
  induction l generalizing bs with
  | nil =>
      simp [mapOption] at h
      subst h
      simp at hb
  | cons a rest ih =>
      cases hg : g a with
      | none => simp [mapOption, hg] at h
      | some b2 =>
          simp only [mapOption, hg] at h
          cases hr : mapOption g rest with
          | none => simp [hr] at h
          | some bs2 =>
              simp [hr] at h
              subst h
              rcases List.mem_cons.mp hb with hb | hb
              · exact ⟨a, List.mem_cons_self _ _, hb ▸ hg⟩
              · obtain ⟨a2, ha2, hga2⟩ := ih bs2 hr hb
                exact ⟨a2, List.mem_cons_of_mem _ ha2, hga2⟩

theorem mapOption_eq_map {α β : Type} (g : α → Option β) (g2 : α → β)
    (l : List α) (h : ∀ a ∈ l, g a = some (g2 a)) :
    mapOption g l = some (l.map g2) := by
  induction l with
  | nil => rfl
  | cons a rest ih =>
      rw [show mapOption g (a :: rest) = match g a with
        | none => none
        | some b => (mapOption g rest).map (fun bs => b :: bs) from rfl]
      rw [h a (List.mem_cons_self a rest),
        ih (fun x hx => h x (List.mem_cons_of_mem a hx))]
      rfl

theorem buildRecord_isSome
    (sel : Str → PyVal → Nat → Option (PyVal × Nat))
    (flds : List (Str × PyVal))
    (hsel : ∀ p ∈ flds, ∀ m, ∃ x n2, sel p.1 p.2 m = some (x, n2)) :
    ∀ acc n, ∃ rec n2, buildRecord sel flds acc n = some (rec, n2) := by
  induction flds with
  | nil => exact fun acc n => ⟨acc, n, rfl⟩
  | cons hd rest ih =>
      obtain ⟨f, v⟩ := hd
      intro acc n
      obtain ⟨x, n2, hx⟩ := hsel (f, v) (List.mem_cons_self _ _) n
      obtain ⟨rec, n3, hrec⟩ :=
        ih (fun p hp m => hsel p (List.mem_cons_of_mem _ hp) m)
          (pyInsert acc f x) n2
      exact ⟨rec, n3, by simp [buildRecord, hx, hrec]⟩

theorem buildRecord_get_preserved
    (sel : Str → PyVal → Nat → Option (PyVal × Nat))
    (flds : List (Str × PyVal)) (acc : PyDict PyVal) (n : Nat)
    (rec : PyDict PyVal) (n2 : Nat) (g : Str)
    (hg : g ∉ flds.map Prod.fst)
    (h : buildRecord sel flds acc n = some (rec, n2)) :
    pyGet rec g = pyGet acc g := by
  induction flds generalizing acc n with
  | nil =>
      simp only [buildRecord] at h
      cases h
      rfl
  | cons hd rest ih =>
      obtain ⟨f, v⟩ := hd
      simp only [List.map_cons, List.mem_cons] at hg
      push_neg at hg
      cases hx : sel f v n with
      | none => simp [buildRecord, hx] at h
      | some p =>
          obtain ⟨x, n3⟩ := p
          simp only [buildRecord, hx] at h
          rw [ih _ _ hg.2 h]
          exact pyGet_insert_ne _ _ _ _ (Ne.symm hg.1)

theorem buildRecord_keys_gen
    (sel : Str → PyVal → Nat → Option (PyVal × Nat))
    (flds : List (Str × PyVal)) (acc : PyDict PyVal) (n : Nat)
    (rec : PyDict PyVal) (n2 : Nat)
    (hnd : (flds.map Prod.fst).Nodup)
    (hdisj : ∀ f ∈ flds.map Prod.fst, f ∉ pyKeys acc)
    (h : buildRecord sel flds acc n = some (rec, n2)) :
    pyKeys rec = pyKeys acc ++ flds.map Prod.fst := by
  induction flds generalizing acc n with
  | nil =>
      simp only [buildRecord] at h
      cases h
      simp
  | cons hd rest ih =>
      obtain ⟨f, v⟩ := hd
      simp only [List.map_cons, List.nodup_cons] at hnd
      cases hx : sel f v n with
      | none => simp [buildRecord, hx] at h
      | some p =>
          obtain ⟨x, n3⟩ := p
          simp only [buildRecord, hx] at h
          have hfacc : f ∉ pyKeys acc :=
            hdisj f (by simp)
          have hins : pyInsert acc f x = acc ++ [(f, x)] :=
            pyInsert_of_not_mem acc f x hfacc
          have hdisj2 : ∀ g ∈ rest.map Prod.fst,
              g ∉ pyKeys (pyInsert acc f x) := by
            intro g hgm
            rw [hins]
            intro hgk
            have : pyKeys (acc ++ [(f, x)]) = pyKeys acc ++ [f] := by
              simp [pyKeys]
            rw [this, List.mem_append] at hgk
            rcases hgk with hgk | hgk
            · exact hdisj g (by simp [hgm]) hgk
            · rcases List.mem_singleton.mp hgk with hgf
              exact hnd.1 (hgf ▸ hgm)
          have := ih _ _ hnd.2 hdisj2 h
          rw [this, hins]
          have : pyKeys (acc ++ [(f, x)]) = pyKeys acc ++ [f] := by
            simp [pyKeys]
          rw [this]
          simp

theorem buildRecord_get
    (sel : Str → PyVal → Nat → Option (PyVal × Nat))
    (flds : List (Str × PyVal)) (acc : PyDict PyVal) (n : Nat)
    (rec : PyDict PyVal) (n2 : Nat) (f : Str) (v : PyVal)
    (hnd : (flds.map Prod.fst).Nodup)
    (h : buildRecord sel flds acc n = some (rec, n2))
    (hm : (f, v) ∈ flds) :
    ∃ m m2 x, sel f v m = some (x, m2) ∧ pyGet rec f = some x := by
  induction flds generalizing acc n with
  | nil => simp at hm
  | cons hd rest ih =>
      obtain ⟨f1, v1⟩ := hd
      simp only [List.map_cons, List.nodup_cons] at hnd
      cases hx : sel f1 v1 n with
      | none => simp [buildRecord, hx] at h
      | some p =>
          obtain ⟨x, n3⟩ := p
          simp only [buildRecord, hx] at h
          rcases List.mem_cons.mp hm with hm1 | hm2
          · obtain ⟨he1, he2⟩ := Prod.mk.injEq .. ▸ hm1
            subst he1
            subst he2
            refine ⟨n, n3, x, hx, ?_⟩
            rw [buildRecord_get_preserved sel rest _ _ _ _ f hnd.1 h]
            exact pyGet_insert_self _ _ _
          · exact ih _ _ hnd.2 h hm2

theorem foldInsertSel_get (idx : Nat) (items : PyDict PyVal)
    (acc : PyDict PyVal) (g : Str)
    (hg : g ∉ pyKeys items) :
    pyGet (items.foldl
      (fun acc q => pyInsert acc q.1 (indexedNestedSel idx q.2)) acc) g =
      pyGet acc g := by
  induction items generalizing acc with
  | nil => rfl
  | cons hd rest ih =>
      obtain ⟨k1, v1⟩ := hd
      rw [pyKeys_cons, List.mem_cons] at hg
      push_neg at hg
      rw [List.foldl_cons, ih _ hg.2]
      exact pyGet_insert_ne _ _ _ _ (Ne.symm hg.1)

theorem processIndexedCD_get (idx : Nat) (cd : PyDict PyVal)
    (nf : Str) (v : PyVal) (hnd : (pyKeys cd).Nodup) (hm : (nf, v) ∈ cd) :
    pyGet (processIndexedCD idx cd) nf = some (indexedNestedSel idx v) := by
  rw [processIndexedCD]
  have main : ∀ (items : PyDict PyVal) (acc : PyDict PyVal),
      (pyKeys items).Nodup → (nf, v) ∈ items →
      pyGet (items.foldl
        (fun acc q => pyInsert acc q.1 (indexedNestedSel idx q.2)) acc) nf =
        some (indexedNestedSel idx v) := by
    intro items
    induction items with
    | nil => intro acc _ hm2; simp at hm2
    | cons hd rest ih =>
        intro acc hnd2 hm2
        obtain ⟨k1, v1⟩ := hd
        rw [pyKeys_cons, List.nodup_cons] at hnd2
        rcases List.mem_cons.mp hm2 with hm3 | hm3
        · obtain ⟨he1, he2⟩ := Prod.mk.injEq .. ▸ hm3
          subst he1
          subst he2
          rw [List.foldl_cons, foldInsertSel_get idx rest _ nf hnd2.1]
          exact pyGet_insert_self _ _ _
        · rw [List.foldl_cons]
          exact ih _ hnd2.2 hm3
  exact main cd [] hnd hm

theorem pyChoice_mem (r : Nat → Nat) (n : Nat) (l : List PyVal)
    (h : l ≠ []) : pyChoice r n l ∈ l := by
  have hlt : r n % l.length < l.length :=
    Nat.mod_lt _ (List.length_pos.mpr h)
  rw [pyChoice, List.getD_eq_get l (.str []) hlt]
  exact List.get_mem l _ _

theorem getD_mem {α : Type} (l : List α) (i : Nat) (d : α)
    (hi : i < l.length) : l.getD i d ∈ l := by
  rw [List.getD_eq_get l d hi]
  exact List.get_mem l _ _

/-! ### C10: record key sets equal section key sets -/

/-- C10.  Every generated record has exactly the fields of its section:
random-mode generation (`generate_model_records`, `generate_model_outputs`)
and indexed-mode generation (`build_indexed_records`) each produce records
whose key list equals the section's key list -- no field dropped, none
invented. -/
theorem generated_record_keys :
    (∀ (r : Nat → Nat) (md : Sec) (count n : Nat)
        (recs : List (PyDict PyVal)) (n2 : Nat),
      (pyKeys md).Nodup →
      generate_model_records r md count n = some (recs, n2) →
      ∀ rec ∈ recs, pyKeys rec = pyKeys md) ∧
    (∀ (r : Nat → Nat) (cfg : PyDict Sec) (sm : Option (List Str)) (n : Nat)
        (out : PyDict (PyDict PyVal)) (n2 : Nat),
      (∀ k sec2, (k, sec2) ∈ cfg → (pyKeys sec2).Nodup) →
      generate_model_outputs r cfg sm n = some (out, n2) →
      ∀ m rec, (m, rec) ∈ out →
        ∃ md, pyGet cfg m = some md ∧ pyKeys rec = pyKeys md) ∧
    (∀ (s : Sec) (recs : List (PyDict PyVal)),
      (pyKeys s).Nodup →
      build_indexed_records s = some recs →
      ∀ rec ∈ recs, pyKeys rec = pyKeys s) := by
  refine ⟨?_, ?_, ?_⟩
  · intro r md count
    induction count with
    | zero =>
        intro n recs n2 hnd h rec hrec
        simp only [generate_model_records] at h
        cases h
        simp at hrec
    | succ c ih =>
        intro n recs n2 hnd h rec hrec
        cases hbr : buildRecord (selectFieldValue r) md [] n with
        | none => simp [generate_model_records, hbr] at h
        | some p =>
            obtain ⟨rec1, n3⟩ := p
            simp only [generate_model_records, hbr] at h
            cases hrest : generate_model_records r md c n3 with
            | none => simp [hrest] at h
            | some q =>
                obtain ⟨recs2, n4⟩ := q
                simp only [hrest] at h
                cases h
                rcases List.mem_cons.mp hrec with hr1 | hr2
                · subst hr1
                  have := buildRecord_keys_gen (selectFieldValue r) md [] n
                    rec n3 hnd (by simp [pyKeys]) hbr
                  simpa [pyKeys] using this
                · exact ih n3 recs2 n2 hnd hrest rec hr2
  · intro r cfg sm n out n2 hsec h m rec hm
    have main : ∀ (models : List Str) (acc : PyDict (PyDict PyVal))
        (n3 : Nat) (out2 : PyDict (PyDict PyVal)) (n4 : Nat),
        (∀ m2 rec2, (m2, rec2) ∈ acc →
          ∃ md, pyGet cfg m2 = some md ∧ pyKeys rec2 = pyKeys md) →
        generate_model_outputs_go r cfg models acc n3 = some (out2, n4) →
        ∀ m2 rec2, (m2, rec2) ∈ out2 →
          ∃ md, pyGet cfg m2 = some md ∧ pyKeys rec2 = pyKeys md := by
      intro models
      induction models with
      | nil =>
          intro acc n3 out2 n4 hacc h2 m2 rec2 hm2
          simp only [generate_model_outputs_go] at h2
          cases h2
          exact hacc m2 rec2 hm2
      | cons m1 rest ih =>
          intro acc n3 out2 n4 hacc h2 m2 rec2 hm2
          cases hg : pyGet cfg m1 with
          | none =>
              simp only [generate_model_outputs_go, hg] at h2
              exact ih acc n3 out2 n4 hacc h2 m2 rec2 hm2
          | some md =>
              simp only [generate_model_outputs_go, hg] at h2
              cases hbr : buildRecord (selectFieldValue r) md [] n3 with
              | none => simp [hbr] at h2
              | some p =>
                  obtain ⟨rec1, n5⟩ := p
                  simp only [hbr] at h2
                  refine ih _ n5 out2 n4 ?_ h2 m2 rec2 hm2
                  intro m3 rec3 hm3
                  rcases mem_pyInsert _ _ _ _ _ hm3 with hin | ⟨he1, he2⟩
                  · exact hacc m3 rec3 hin
                  · have h1 : pyGet cfg m3 = some md := by rw [he1]; exact hg
                    have h2 : pyKeys rec3 = pyKeys md := by
                      rw [he2]
                      have hnd : (pyKeys md).Nodup :=
                        hsec m1 md (mem_of_pyGet_eq_some cfg m1 md hg)
                      have := buildRecord_keys_gen (selectFieldValue r) md []
                        n3 rec1 n5 hnd (by simp [pyKeys]) hbr
                      simpa [pyKeys] using this
                    exact ⟨md, h1, h2⟩
    exact main (selectedOrAll cfg sm) [] n out n2 (by simp) h m rec hm
  · intro s recs hnd h rec hrec
    rw [build_indexed_records] at h
    cases hlen : mapOption (fun f => (pyGet s f).bind pyLen) REQUIRED_FIELDS with
    | none => simp [hlen] at h
    | some lengths =>
        simp only [hlen] at h
        by_cases hle : lengths.isEmpty
        · rw [if_pos hle] at h
          cases h
          simp at hrec
        · rw [if_neg hle] at h
          obtain ⟨idx, _, hidx⟩ := mapOption_mem _ _ _ h rec hrec
          cases hbr : buildRecord (indexedSelBR idx) s [] 0 with
          | none => simp [hbr] at hidx
          | some p =>
              obtain ⟨rec1, n5⟩ := p
              simp only [hbr, Option.map_some'] at hidx
              have hre : rec1 = rec := by injection hidx
              subst hre
              have := buildRecord_keys_gen (indexedSelBR idx) s [] 0
                rec1 n5 hnd (by simp [pyKeys]) hbr
              simpa [pyKeys] using this

/-- Witness for C10 at a one-field section and one random record. -/
theorem generated_record_keys_witness :
    pyKeys ([("a".data, PyVal.str "x".data)] : PyDict PyVal) =
      pyKeys ([("a".data, PyVal.list [.str "x".data])] : Sec) :=
  generated_record_keys.1 (fun _ => 0)
    [("a".data, PyVal.list [.str "x".data])] 1 0
    [[("a".data, PyVal.str "x".data)]] 1 (by decide) rfl
    [("a".data, PyVal.str "x".data)] (List.mem_singleton.mpr rfl)

/-! ### C6: random-mode draw validity -/

/-- C6 (amended).  Every randomly selected value is drawn from the
field's own pool: in `generate_model_records` (and the identically coded
`generate_model_outputs` field loop), a non-`ClaimDetails`-nested list
field always receives one of its pool elements, nested `ClaimDetails`
fields receive elements of their nested pools, and a scalar string passes
through verbatim.  In `_select_random_record_from_edit`, however, a
scalar string does NOT pass through: any non-list value becomes the empty
string (the function has no string arm) -- the claim is wrong there, see
the counterexample. -/
theorem random_draw_validity :
    (∀ (r : Nat → Nat) (md : Sec) (count n : Nat)
        (recs : List (PyDict PyVal)) (n2 : Nat),
      (pyKeys md).Nodup →
      generate_model_records r md count n = some (recs, n2) →
      ∀ rec ∈ recs, ∀ g vs, (g, PyVal.list vs) ∈ md → vs ≠ [] →
        ¬(g = "ClaimDetails".data ∧ headIsDict vs = true) →
        ∃ x ∈ vs, pyGet rec g = some x) ∧
    (∀ (r : Nat → Nat) (cd : PyDict PyVal) (n : Nat)
        (pd : PyDict PyVal) (n2 : Nat),
      (pyKeys cd).Nodup →
      buildRecord (nestedRandomSel r) cd [] n = some (pd, n2) →
      ∀ nf nvs, (nf, PyVal.list nvs) ∈ cd → nvs ≠ [] →
        ∃ x ∈ nvs, pyGet pd nf = some x) ∧
    (∀ (r : Nat → Nat) (f s : Str) (n : Nat),
      selectFieldValue r f (.str s) n = some (.str s, n)) ∧
    (∀ (r : Nat → Nat) (f s : Str) (n : Nat),
      selectEditFieldValue r f (.str s) n = some (.str [], n)) := by
  refine ⟨?_, ?_, ?_, ?_⟩
  · intro r md count
    induction count with
    | zero =>
        intro n recs n2 hnd h rec hrec
        simp only [generate_model_records] at h
        cases h
        simp at hrec
    | succ c ih =>
        intro n recs n2 hnd h rec hrec g vs hm hne hncd
        cases hbr : buildRecord (selectFieldValue r) md [] n with
        | none => simp [generate_model_records, hbr] at h
        | some p =>
            obtain ⟨rec1, n3⟩ := p
            simp only [generate_model_records, hbr] at h
            cases hrest : generate_model_records r md c n3 with
            | none => simp [hrest] at h
            | some q =>
                obtain ⟨recs2, n4⟩ := q
                simp only [hrest] at h
                cases h
                rcases List.mem_cons.mp hrec with hr1 | hr2
                · subst hr1
                  obtain ⟨m, m2, x, hsel, hget⟩ := buildRecord_get
                    (selectFieldValue r) md [] n rec n3 g (PyVal.list vs)
                    hnd hbr hm
                  have hx : x = pyChoice r m vs := by
                    rw [selectFieldValue] at hsel
                    rw [if_neg (by simpa using hne), if_neg hncd] at hsel
                    have := (Option.some.injEq .. ▸ hsel)
                    exact (Prod.mk.injEq .. ▸ this).1.symm
                  exact ⟨x, hx ▸ pyChoice_mem r m vs hne, hget⟩
                · exact ih n3 recs2 n2 hnd hrest rec hr2 g vs hm hne hncd
  · intro r cd n pd n2 hnd h nf nvs hm hne
    obtain ⟨m, m2, x, hsel, hget⟩ :=
      buildRecord_get (nestedRandomSel r) cd [] n pd n2 nf (PyVal.list nvs)
        hnd h hm
    have hx : x = pyChoice r m nvs := by
      rw [nestedRandomSel] at hsel
      rw [if_neg (by simpa using hne)] at hsel
      have := (Option.some.injEq .. ▸ hsel)
      exact (Prod.mk.injEq .. ▸ this).1.symm
    exact ⟨x, hx ▸ pyChoice_mem r m nvs hne, hget⟩
  · intro r f s n
    rfl
  · intro r f s n
    rfl

/-- C6 counterexample.  `_select_random_record_from_edit` on a section
whose field holds the scalar string `"abc"` yields the empty string, not
the scalar verbatim. -/
theorem random_draw_validity_counterexample :
    select_random_record_from_edit (fun _ => 0)
        [("f".data, .str "abc".data)] 0 =
      some ([("f".data, .str [])], 0) ∧
    "abc".data ≠ ([] : Str) :=
  ⟨rfl, by decide⟩

/-- Witness for C6: one record drawn from a two-value pool is one of the
two values. -/
theorem random_draw_validity_witness :
    ∃ x ∈ [PyVal.str "TN".data, PyVal.str "KL".data],
      pyGet ([("g".data, PyVal.str "TN".data)] : PyDict PyVal) "g".data =
        some x :=
  random_draw_validity.1 (fun _ => 0)
    [("g".data, PyVal.list [.str "TN".data, .str "KL".data])] 1 0
    [[("g".data, PyVal.str "TN".data)]] 1 (by decide) rfl
    [("g".data, PyVal.str "TN".data)] (List.mem_singleton.mpr rfl)
    "g".data [.str "TN".data, .str "KL".data]
    (List.mem_singleton.mpr rfl) (by simp) (by decide)

/-! ### C4: scope of the nested `ClaimDetails` handling -/

/-- Nested per-field selection of `generate_wgs_format`
(src/src/mockgen/consolidated_generator.py lines 100-105): non-empty list
pools get a random draw; any other value -- empty lists included -- is
kept as-is. -/
def wgsProcessCD (r : Nat → Nat) (cd : PyDict PyVal) (n : Nat) :
    PyDict PyVal × Nat :=
  cd.foldl
    (fun acc q =>
      match q.2 with
      | .list nvs =>
          if nvs.isEmpty then (pyInsert acc.1 q.1 q.2, acc.2)
          else (pyInsert acc.1 q.1 (pyChoice r acc.2 nvs), acc.2 + 1)
      | _ => (pyInsert acc.1 q.1 q.2, acc.2))
    ([], n)

/-- The `ClaimDetails` branch of `generate_wgs_format`
(consolidated_generator.py lines 93-110): take ONLY the first list
element; when it is a mapping, flatten it and wrap in a one-element list;
otherwise pass the whole value through unchanged. -/
def wgsClaimDetailsValue (r : Nat → Nat) (values : PyVal) (n : Nat) :
    PyVal × Nat :=
  match values with
  | .list (first :: _) =>
      match first with
      | .dict cd =>
          let p := wgsProcessCD r cd n
          (.list [.dict p.1], p.2)
      | _ => (values, n)
  | _ => (values, n)

/-- C4 (amended).  Nested sub-object handling triggers only for the field
literally named `ClaimDetails` and only when the pool's first element is
a mapping -- any other list field gets a plain random draw.  But the core
generators (`generate_model_outputs`, `generate_model_records`,
`_select_random_record_from_edit`, identical code) then flatten EVERY
element of the pool, producing a list of the same length as the pool (a
one-element list only for one-element pools); only
`generate_wgs_format` restricts itself to the first element and always
yields a one-element list. -/
theorem claim_details_scope :
    (∀ (r : Nat → Nat) (f : Str) (vs : List PyVal) (n : Nat),
      vs ≠ [] → f ≠ "ClaimDetails".data →
      selectFieldValue r f (.list vs) n = some (pyChoice r n vs, n + 1)) ∧
    (∀ (r : Nat → Nat) (vs : List PyVal) (n : Nat),
      vs ≠ [] → headIsDict vs = false →
      selectFieldValue r "ClaimDetails".data (.list vs) n =
        some (pyChoice r n vs, n + 1)) ∧
    (∀ (r : Nat → Nat) (vs : List PyVal) (n : Nat) (ds : List PyVal)
        (n2 : Nat),
      processClaimDetails r vs n = some (ds, n2) → ds.length = vs.length) ∧
    (∀ (r : Nat → Nat) (cd : PyDict PyVal) (rest : List PyVal) (n : Nat),
      wgsClaimDetailsValue r (.list (.dict cd :: rest)) n =
        wgsClaimDetailsValue r (.list [.dict cd]) n ∧
      ∃ pd n2, wgsClaimDetailsValue r (.list (.dict cd :: rest)) n =
        (.list [.dict pd], n2)) := by
  refine ⟨?_, ?_, ?_, ?_⟩
  · intro r f vs n hne hf
    rw [selectFieldValue, if_neg (by simpa using hne),
      if_neg (fun hc => hf hc.1)]
  · intro r vs n hne hhd
    rw [selectFieldValue, if_neg (by simpa using hne),
      if_neg (fun hc => by rw [hhd] at hc; exact Bool.false_ne_true hc.2)]
  · intro r vs
    induction vs with
    | nil =>
        intro n ds n2 h
        simp only [processClaimDetails] at h
        cases h
        rfl
    | cons v rest ih =>
        intro n ds n2 h
        cases v with
        | dict cd =>
            cases hbr : buildRecord (nestedRandomSel r) cd [] n with
            | none => simp [processClaimDetails, hbr] at h
            | some p =>
                obtain ⟨pd, n3⟩ := p
                simp only [processClaimDetails, hbr] at h
                cases hrest : processClaimDetails r rest n3 with
                | none => simp [hrest] at h
                | some q =>
                    obtain ⟨ds2, n4⟩ := q
                    simp only [hrest] at h
                    cases h
                    simp only [List.length_cons]
                    rw [ih n3 ds2 n2 hrest]
        | str s => simp [processClaimDetails] at h
        | int m => simp [processClaimDetails] at h
        | list l => simp [processClaimDetails] at h
  · intro r cd rest n
    exact ⟨rfl, (wgsProcessCD r cd n).1, (wgsProcessCD r cd n).2, rfl⟩

/-- Shared input of the C4 counterexample: a section whose `ClaimDetails`
pool holds TWO mappings. -/
def twoCDSec : Sec :=
  [("ClaimDetails".data, .list
    [.dict [("a".data, .list [.str "1".data])],
     .dict [("b".data, .list [.str "2".data])]])]

/-- C4 counterexample.  On a two-element `ClaimDetails` pool,
`generate_model_records` emits a TWO-element list (one flattened record
per pool element), not a one-element list restricted to the first
element. -/
theorem claim_details_scope_counterexample :
    generate_model_records (fun _ => 0) twoCDSec 1 0 =
      some ([[("ClaimDetails".data, .list
        [.dict [("a".data, .str "1".data)],
         .dict [("b".data, .str "2".data)]])]], 2) ∧
    List.length [PyVal.dict [("a".data, .str "1".data)],
      PyVal.dict [("b".data, .str "2".data)]] = 2 ∧
    (2 : Nat) ≠ 1 :=
  ⟨rfl, rfl, by decide⟩

/-- Witness for C4: a non-`ClaimDetails` field gets a plain draw, and the
nested processing preserves pool length on a concrete two-element pool. -/
theorem claim_details_scope_witness :
    selectFieldValue (fun _ => 0) "HCID".data
        (.list [.str "H1".data, .str "H2".data]) 0 =
      some (pyChoice (fun _ => 0) 0 [.str "H1".data, .str "H2".data], 1) ∧
    List.length [PyVal.dict [("a".data, .str "1".data)],
      PyVal.dict [("b".data, .str "2".data)]] = List.length
        [PyVal.dict [("a".data, .list [.str "1".data])],
         PyVal.dict [("b".data, .list [.str "2".data])]] :=
  ⟨claim_details_scope.1 (fun _ => 0) "HCID".data
      [.str "H1".data, .str "H2".data] 0 (by simp) (by decide),
    claim_details_scope.2.2.1 (fun _ => 0)
      [.dict [("a".data, .list [.str "1".data])],
       .dict [("b".data, .list [.str "2".data])]] 0
      [.dict [("a".data, .str "1".data)],
       .dict [("b".data, .str "2".data)]] 2 rfl⟩

/-! ### C7: behaviour on an empty indexed result -/

/-- C7 (amended).  When indexed-mode generation yields zero records for a
section, the CLI `--model` branch does NOT treat it as a non-fatal
message: it raises a fatal `SystemExit` naming the model (cli.py lines
187-190, and identically generate_mock_output.py lines 270-273), aborting
the run. -/
theorem cli_empty_indexed_fatal (modelName : Str) (modelData : Sec)
    (h : build_indexed_records modelData = some []) :
    cliModelIndexedBranch modelName modelData = .fatal modelName := by
  rw [cliModelIndexedBranch, h]
  rfl

/-- Shared input: a structurally valid section whose required pools are
all empty, making indexed generation produce zero records. -/
def allEmptySec : Sec := REQUIRED_FIELDS.map (fun f => (f, PyVal.list []))

/-- C7 counterexample.  On a section with all required pools empty,
`build_indexed_records` returns zero records and the CLI aborts with the
fatal `SystemExit` outcome -- not a non-fatal message. -/
theorem cli_empty_indexed_counterexample :
    build_indexed_records allEmptySec = some [] ∧
    cliModelIndexedBranch "Model_1".data allEmptySec =
      .fatal "Model_1".data :=
  ⟨rfl, rfl⟩

/-- Witness for C7 at `allEmptySec` under a different model name. -/
theorem cli_empty_indexed_fatal_witness :
    cliModelIndexedBranch "Edit_9".data allEmptySec = .fatal "Edit_9".data :=
  cli_empty_indexed_fatal "Edit_9".data allEmptySec rfl

/-! ### C1: indexed pairing cardinality and modulo selection -/

/-- Whether required field `f` of section `s` holds a non-empty list. -/
def poolOkB (s : Sec) (f : Str) : Bool :=
  match pyGet s f with
  | some (PyVal.list vs) => !vs.isEmpty
  | _ => false

/-- The pool length of field `f` (`len(section_options[f])`, 0 when the
access would fail -- excluded by `poolOkB`). -/
def poolLen (s : Sec) (f : Str) : Nat :=
  ((pyGet s f).bind pyLen).getD 0

/-- Whether every `ClaimDetails`-processed pool element is a mapping with
distinct field names (always true for pools parsed from JSON). -/
def cdPoolOkB (vs : List PyVal) : Bool :=
  vs.all (fun v =>
    match v with
    | PyVal.dict cd => decide ((pyKeys cd).Nodup)
    | _ => false)

def cdOkB (s : Sec) : Bool :=
  s.all (fun p =>
    match p.2 with
    | PyVal.list vs =>
        if p.1 = "ClaimDetails".data ∧ headIsDict vs = true then cdPoolOkB vs
        else true
    | _ => true)

theorem poolOkB_extract (s : Sec) (f : Str) (h : poolOkB s f = true) :
    ∃ vs, pyGet s f = some (PyVal.list vs) ∧ vs ≠ [] := by
  rw [poolOkB] at h
  cases hg : pyGet s f with
  | none => rw [hg] at h; cases h
  | some v =>
      cases v with
      | list vs =>
          rw [hg] at h
          exact ⟨vs, rfl, by simpa using h⟩
      | str t => rw [hg] at h; cases h
      | int m => rw [hg] at h; cases h
      | dict d => rw [hg] at h; cases h

theorem cdOkB_extract (s : Sec) (hcd : cdOkB s = true) (vs : List PyVal)
    (hm : ("ClaimDetails".data, PyVal.list vs) ∈ s)
    (hh : headIsDict vs = true) :
    ∀ v ∈ vs, ∃ cd, v = PyVal.dict cd ∧ (pyKeys cd).Nodup := by
  intro v hv
  have hp := List.all_eq_true.mp hcd _ hm
  have hp2 : cdPoolOkB vs = true := by
    simpa [hh] using hp
  have hvv := List.all_eq_true.mp hp2 v hv
  cases v with
  | dict cd => exact ⟨cd, rfl, of_decide_eq_true hvv⟩
  | str t => cases hvv
  | int m => cases hvv
  | list l => cases hvv

/-- C1 (amended only in presentation).  For every section whose required
fields all hold non-empty pools (and whose `ClaimDetails` pools hold
mappings), indexed generation produces exactly
`max(len(pool) for required field)` records; record `i` maps every flat
list-valued field `g` (outside the nested `ClaimDetails` case) to
`g_pool[i mod len(g_pool)]`, maps `ClaimDetails` to the element-wise
indexed flattening of its pool, and each nested list-valued field inside
a flattened element uses its pool at `i mod len(nested_pool)`. -/
theorem build_indexed_records_spec (s : Sec)
    (hnd : (pyKeys s).Nodup)
    (hpools : ∀ f ∈ REQUIRED_FIELDS, poolOkB s f = true)
    (hcd : cdOkB s = true) :
    ∃ recs, build_indexed_records s = some recs ∧
      recs.length = maxNat (REQUIRED_FIELDS.map (poolLen s)) ∧
      (∀ i, ∀ hi : i < recs.length,
        (∀ g vs, (g, PyVal.list vs) ∈ s → vs ≠ [] →
          ¬(g = "ClaimDetails".data ∧ headIsDict vs = true) →
          pyGet (recs.get ⟨i, hi⟩) g =
            some (vs.getD (i % vs.length) (.str []))) ∧
        (∀ vs, ("ClaimDetails".data, PyVal.list vs) ∈ s →
          headIsDict vs = true →
          pyGet (recs.get ⟨i, hi⟩) "ClaimDetails".data =
            some (.list (vs.map (fun v =>
              match v with
              | PyVal.dict cd => PyVal.dict (processIndexedCD i cd)
              | _ => PyVal.str []))))) ∧
      (∀ i (cd : PyDict PyVal) nf nvs, (pyKeys cd).Nodup →
        (nf, PyVal.list nvs) ∈ cd → nvs ≠ [] →
        pyGet (processIndexedCD i cd) nf =
          some (nvs.getD (i % nvs.length) (.str []))) := by
  -- the required-field lengths all resolve
  have hlen : mapOption (fun f => (pyGet s f).bind pyLen) REQUIRED_FIELDS =
      some (REQUIRED_FIELDS.map (poolLen s)) := by
    refine mapOption_eq_map _ _ _ ?_
    intro f hf
    obtain ⟨vs, hg, _⟩ := poolOkB_extract s f (hpools f hf)
    rw [poolLen, hg]
    rfl
  -- the per-index record builder always succeeds
  have hsel : ∀ p ∈ s, ∀ (idx m : Nat),
      ∃ x n2, indexedSelBR idx p.1 p.2 m = some (x, n2) := by
    intro p hp idx m
    obtain ⟨f, v⟩ := p
    cases v with
    | list vs =>
        by_cases hemp : vs.isEmpty
        · exact ⟨.str [], m, by simp [indexedSelBR, indexedSelect, hemp]⟩
        · by_cases hc : f = "ClaimDetails".data ∧ headIsDict vs = true
          · obtain ⟨hf, hh⟩ := hc
            subst hf
            have hall := cdOkB_extract s hcd vs hp hh
            obtain ⟨ds, hds⟩ := mapOption_some
              (fun cdv => match cdv with
                | PyVal.dict cd =>
                    (some (PyVal.dict (processIndexedCD idx cd)) : Option PyVal)
                | _ => none) vs
              (by
                intro v hv
                obtain ⟨cd, hveq, _⟩ := hall v hv
                exact ⟨.dict (processIndexedCD idx cd), by rw [hveq]⟩)
            refine ⟨.list ds, m, ?_⟩
            rw [indexedSelBR]
            rw [show indexedSelect idx "ClaimDetails".data (.list vs) =
              (mapOption (fun cdv => match cdv with
                | PyVal.dict cd =>
                    (some (PyVal.dict (processIndexedCD idx cd)) : Option PyVal)
                | _ => none) vs).map PyVal.list from by
              rw [indexedSelect, if_neg (by simp [hemp]), if_pos ⟨rfl, hh⟩]]
            rw [hds]
            rfl
          · exact ⟨vs.getD (idx % vs.length) (.str []), m, by
              rw [indexedSelBR]
              rw [show indexedSelect idx f (.list vs) =
                some (vs.getD (idx % vs.length) (.str [])) from by
                rw [indexedSelect, if_neg (by simp [hemp]), if_neg hc]]
              rfl⟩
    | str t => exact ⟨.str [], m, rfl⟩
    | int m2 => exact ⟨.str [], m, rfl⟩
    | dict d => exact ⟨.str [], m, rfl⟩
  have hrec : ∀ idx ∈ List.range (maxNat (REQUIRED_FIELDS.map (poolLen s))),
      ∃ rec, (buildRecord (indexedSelBR idx) s [] 0).map Prod.fst =
        some rec := by
    intro idx _
    obtain ⟨rec, n2, hbr⟩ :=
      buildRecord_isSome (indexedSelBR idx) s
        (fun p hp m => hsel p hp idx m) [] 0
    exact ⟨rec, by rw [hbr]; rfl⟩
  obtain ⟨recs, hrecs⟩ := mapOption_some _ _ hrec
  have hle : (REQUIRED_FIELDS.map (poolLen s)).isEmpty = false := by
    simp [REQUIRED_FIELDS]
  refine ⟨recs, ?_, ?_, ?_, ?_⟩
  · simp only [build_indexed_records, hlen]
    rw [if_neg (by simp [hle])]
    exact hrecs
  · rw [mapOption_length _ _ _ hrecs, List.length_range]
  · intro i hi
    have hir : i < (List.range (maxNat (REQUIRED_FIELDS.map (poolLen s)))).length := by
      rw [List.length_range]
      rw [mapOption_length _ _ _ hrecs, List.length_range] at hi
      exact hi
    have hgi := mapOption_get _ _ _ hrecs i hir hi
    have hidx : (List.range (maxNat (REQUIRED_FIELDS.map (poolLen s)))).get
        ⟨i, hir⟩ = i := by simp
    rw [hidx] at hgi
    cases hbr : buildRecord (indexedSelBR i) s [] 0 with
    | none => rw [hbr] at hgi; cases hgi
    | some p =>
        obtain ⟨rec1, n5⟩ := p
        rw [hbr] at hgi
        have hre : rec1 = recs.get ⟨i, hi⟩ := by
          simpa using hgi
        constructor
        · intro g vs hm hne hncd
          obtain ⟨m, m2, x, hselx, hget⟩ := buildRecord_get
            (indexedSelBR i) s [] 0 rec1 n5 g (PyVal.list vs) hnd hbr hm
          have hx : x = vs.getD (i % vs.length) (.str []) := by
            rw [indexedSelBR] at hselx
            rw [show indexedSelect i g (.list vs) =
              some (vs.getD (i % vs.length) (.str [])) from by
              rw [indexedSelect, if_neg (by simpa using hne), if_neg hncd]]
              at hselx
            have := (Option.some.injEq .. ▸ hselx)
            exact ((Prod.mk.injEq .. ▸ this).1).symm
          rw [← hre, hget, hx]
        · intro vs hm hh
          obtain ⟨m, m2, x, hselx, hget⟩ := buildRecord_get
            (indexedSelBR i) s [] 0 rec1 n5 "ClaimDetails".data
            (PyVal.list vs) hnd hbr hm
          have hall := cdOkB_extract s hcd vs hm hh
          have hemp : vs.isEmpty = false := by
            cases vs with
            | nil => cases hh
            | cons a b => rfl
          have hmap : mapOption (fun cdv => match cdv with
              | PyVal.dict cd =>
                  (some (PyVal.dict (processIndexedCD i cd)) : Option PyVal)
              | _ => none) vs =
              some (vs.map (fun v => match v with
              | PyVal.dict cd => PyVal.dict (processIndexedCD i cd)
              | _ => PyVal.str [])) := by
            refine mapOption_eq_map _ _ _ ?_
            intro v hv
            obtain ⟨cd, hveq, _⟩ := hall v hv
            rw [hveq]
          have hx : x = .list (vs.map (fun v => match v with
              | PyVal.dict cd => PyVal.dict (processIndexedCD i cd)
              | _ => PyVal.str [])) := by
            rw [indexedSelBR] at hselx
            rw [show indexedSelect i "ClaimDetails".data (.list vs) =
              (mapOption (fun cdv => match cdv with
                | PyVal.dict cd =>
                    (some (PyVal.dict (processIndexedCD i cd)) : Option PyVal)
                | _ => none) vs).map PyVal.list from by
              rw [indexedSelect, if_neg (by simp [hemp]), if_pos ⟨rfl, hh⟩]]
              at hselx
            rw [hmap] at hselx
            have := (Option.some.injEq .. ▸ hselx)
            exact ((Prod.mk.injEq .. ▸ this).1).symm
          rw [← hre, hget, hx]
  · intro i cd nf nvs hndcd hm hne
    rw [processIndexedCD_get i cd nf (PyVal.list nvs) hndcd hm]
    rw [show indexedNestedSel i (PyVal.list nvs) =
      nvs.getD (i % nvs.length) (.str []) from by
      rw [indexedNestedSel, if_neg (by simpa using hne)]]

/-- The concrete 8-field scenario of spec section 8. -/
def scenarioSec : Sec :=
  [("PRICNG_ZIP_STATE".data, .list [.str "TN".data, .str "KL".data]),
   ("CLM_TYPE".data, .list [.str "P".data]),
   ("SRVC_FROM_DT".data, .list [.str "04/20/2025".data]),
   ("HCID".data, .list [.str "H1".data, .str "H2".data]),
   ("PAT_BRTH_DT".data, .list [.str "01/01/1990".data]),
   ("PAT_FRST_NME".data, .list [.str "Mohan".data]),
   ("PAT_LAST_NME".data, .list [.str "Kumar".data]),
   ("ClaimDetails".data, .list [.dict
     [("SRVC_FROM_DT".data, .list [.str "12/12/2024".data]),
      ("proc_cd".data, .list [.str "111".data, .str "222".data]),
      ("BILL_TYPE".data, .list [.str "P".data])]])]

/-- Witness for C1 at the spec section 8 scenario: the general theorem
applies, and concretely the run yields exactly 2 records with record 0
using `TN`, `H1`, `111` and record 1 using `KL`, `H2`, `222`. -/
theorem build_indexed_records_spec_witness :
    (∃ recs, build_indexed_records scenarioSec = some recs ∧
      recs.length = maxNat (REQUIRED_FIELDS.map (poolLen scenarioSec)) ∧
      (∀ i, ∀ hi : i < recs.length,
        (∀ g vs, (g, PyVal.list vs) ∈ scenarioSec → vs ≠ [] →
          ¬(g = "ClaimDetails".data ∧ headIsDict vs = true) →
          pyGet (recs.get ⟨i, hi⟩) g =
            some (vs.getD (i % vs.length) (.str []))) ∧
        (∀ vs, ("ClaimDetails".data, PyVal.list vs) ∈ scenarioSec →
          headIsDict vs = true →
          pyGet (recs.get ⟨i, hi⟩) "ClaimDetails".data =
            some (.list (vs.map (fun v =>
              match v with
              | PyVal.dict cd => PyVal.dict (processIndexedCD i cd)
              | _ => PyVal.str []))))) ∧
      (∀ i (cd : PyDict PyVal) nf nvs, (pyKeys cd).Nodup →
        (nf, PyVal.list nvs) ∈ cd → nvs ≠ [] →
        pyGet (processIndexedCD i cd) nf =
          some (nvs.getD (i % nvs.length) (.str [])))) ∧
    (build_indexed_records scenarioSec).map List.length = some 2 ∧
    (build_indexed_records scenarioSec).map
        (fun l => l.map (fun rec => pyGet rec "PRICNG_ZIP_STATE".data)) =
      some [some (.str "TN".data), some (.str "KL".data)] ∧
    (build_indexed_records scenarioSec).map
        (fun l => l.map (fun rec => pyGet rec "HCID".data)) =
      some [some (.str "H1".data), some (.str "H2".data)] ∧
    (build_indexed_records scenarioSec).map
        (fun l => l.map (fun rec =>
          (pyGet rec "ClaimDetails".data).map (fun v =>
            match v with
            | PyVal.list (PyVal.dict pd :: _) => pyGet pd "proc_cd".data
            | _ => none))) =
      some [some (some (.str "111".data)), some (some (.str "222".data))] :=
  ⟨build_indexed_records_spec scenarioSec (by decide) (by decide) (by decide),
    rfl, rfl, rfl, rfl⟩

/-! ### Decimal rendering: fuel-independence, digits, injectivity -/

theorem natReprF_congr : ∀ (f1 n : Nat), n < f1 → ∀ f2, n < f2 →
    natReprF f1 n = natReprF f2 n := by
  intro f1
  induction f1 with
  | zero => intro n hn; cases hn
  | succ g ih =>
      intro n hn f2 hn2
      cases f2 with
      | zero => cases hn2
      | succ h =>
          by_cases h10 : n < 10
          · simp [natReprF, h10]
          · have hdiv : n / 10 < n :=
              Nat.div_lt_self (by omega) (by omega)
            have h1 : n / 10 < g := by omega
            have h2 : n / 10 < h := by omega
            simp only [natReprF, if_neg h10]
            rw [ih (n / 10) h1 h h2]

theorem natRepr_eq (n : Nat) :
    natRepr n = if n < 10 then [digitChar n]
      else natRepr (n / 10) ++ [digitChar (n % 10)] := by
  by_cases h10 : n < 10
  · simp [natRepr, natReprF, h10]
  · have hdiv : n / 10 < n := Nat.div_lt_self (by omega) (by omega)
    rw [natRepr, natReprF]
    rw [if_neg h10, if_neg h10]
    rw [natReprF_congr n (n / 10) (by omega) (n / 10 + 1) (by omega)]
    rfl

theorem natRepr_ne_nil (n : Nat) : natRepr n ≠ [] := by
  rw [natRepr_eq]
  by_cases h10 : n < 10
  · simp [h10]
  · simp [h10]

theorem digitChar_isDigit : ∀ d, d < 10 → (digitChar d).isDigit = true := by
  decide

theorem digitChar_inj : ∀ a, a < 10 → ∀ b, b < 10 →
    digitChar a = digitChar b → a = b := by
  decide

theorem natRepr_digits (n : Nat) : ∀ c ∈ natRepr n, c.isDigit = true := by
  induction n using Nat.strong_induction_on with
  | _ n ih =>
      intro c hc
      rw [natRepr_eq] at hc
      by_cases h10 : n < 10
      · rw [if_pos h10] at hc
        rcases List.mem_singleton.mp hc with hc2
        rw [hc2]
        exact digitChar_isDigit n h10
      · rw [if_neg h10] at hc
        rcases List.mem_append.mp hc with hc2 | hc2
        · exact ih (n / 10) (Nat.div_lt_self (by omega) (by omega)) c hc2
        · rcases List.mem_singleton.mp hc2 with hc3
          rw [hc3]
          exact digitChar_isDigit (n % 10) (Nat.mod_lt n (by omega))

theorem append_singleton_inj {α : Type} (as bs : List α) (a b : α)
    (h : as ++ [a] = bs ++ [b]) : as = bs ∧ a = b := by
  have hr := congrArg List.reverse h
  simp only [List.reverse_append, List.reverse_singleton,
    List.singleton_append] at hr
  obtain ⟨h1, h2⟩ := List.cons.injEq .. ▸ hr
  exact ⟨by simpa using congrArg List.reverse h2, h1⟩

theorem natRepr_inj : ∀ m n : Nat, natRepr m = natRepr n → m = n := by
  intro m
  induction m using Nat.strong_induction_on with
  | _ m ih =>
      intro n h
      rw [natRepr_eq] at h
      by_cases hm : m < 10
      · rw [if_pos hm, natRepr_eq] at h
        by_cases hn : n < 10
        · rw [if_pos hn] at h
          have := List.cons.injEq .. ▸ h
          exact digitChar_inj m hm n hn this.1
        · rw [if_neg hn] at h
          have hne := natRepr_ne_nil (n / 10)
          have hlen := congrArg List.length h
          simp only [List.length_append, List.length_cons,
            List.length_nil] at hlen
          have h0 : (natRepr (n / 10)).length = 0 := by omega
          exact absurd (List.eq_nil_of_length_eq_zero h0) hne
      · rw [if_neg hm] at h
        nth_rewrite 2 [natRepr_eq] at h
        by_cases hn : n < 10
        · rw [if_pos hn] at h
          have hne := natRepr_ne_nil (m / 10)
          have hlen := congrArg List.length h
          simp only [List.length_append, List.length_cons,
            List.length_nil] at hlen
          have h0 : (natRepr (m / 10)).length = 0 := by omega
          exact absurd (List.eq_nil_of_length_eq_zero h0) hne
        · rw [if_neg hn] at h
          obtain ⟨h1, h2⟩ := append_singleton_inj _ _ _ _ h
          have hdiv : m / 10 = n / 10 :=
            ih (m / 10) (Nat.div_lt_self (by omega) (by omega)) (n / 10) h1
          have hmod : m % 10 = n % 10 :=
            digitChar_inj (m % 10) (Nat.mod_lt m (by omega)) (n % 10)
              (Nat.mod_lt n (by omega)) h2
          omega

/-- The maximal trailing run of digit characters. -/
def trailingDigits (l : Str) : Str :=
  (l.reverse.takeWhile (fun c => c.isDigit)).reverse

theorem takeWhile_append_all {α : Type} (p : α → Bool) (xs ys : List α)
    (h : ∀ a ∈ xs, p a = true) :
    (xs ++ ys).takeWhile p = xs ++ ys.takeWhile p := by
  induction xs with
  | nil => simp
  | cons a rest ih =>
      have ha := h a (List.mem_cons_self a rest)
      simp only [List.cons_append, List.takeWhile_cons, ha]
      rw [ih (fun x hx => h x (List.mem_cons_of_mem a hx))]
      simp

theorem trailingDigits_outputKey (k : Str) (i : Nat) :
    trailingDigits (outputKey k i) = natRepr i := by
  rw [trailingDigits, outputKey]
  rw [List.append_assoc, List.reverse_append, List.reverse_append,
    List.append_assoc]
  rw [takeWhile_append_all _ _ _
    (fun c hc => natRepr_digits i c (List.mem_reverse.mp hc))]
  have hrev : ("_output_".data).reverse ++ k.reverse =
      '_' :: ("tuptuo_".data ++ k.reverse) := by
    rfl
  rw [hrev]
  rw [show List.takeWhile (fun c => c.isDigit)
      ('_' :: ("tuptuo_".data ++ k.reverse)) = [] from by
    simp [List.takeWhile_cons]]
  simp

theorem outputKey_inj_idx (k1 k2 : Str) (i1 i2 : Nat)
    (h : outputKey k1 i1 = outputKey k2 i2) : i1 = i2 := by
  have := congrArg trailingDigits h
  rw [trailingDigits_outputKey, trailingDigits_outputKey] at this
  exact natRepr_inj i1 i2 this

/-! ### C9: payload cardinality and key shape -/

/-- A section whose `ClaimDetails` pools (when nested handling triggers)
hold only mappings -- the shape every loaded configuration has; other
shapes make the Python record selector crash on `claim_detail.items()`. -/
def secCDOkB (sec : Sec) : Bool :=
  sec.all (fun p =>
    match p.2 with
    | PyVal.list vs =>
        if p.1 = "ClaimDetails".data ∧ headIsDict vs = true then
          vs.all (fun v => match v with | PyVal.dict _ => true | _ => false)
        else true
    | _ => true)

theorem nestedRandomSel_isSome (r : Nat → Nat) (f : Str) (v : PyVal)
    (m : Nat) : ∃ x n2, nestedRandomSel r f v m = some (x, n2) := by
  cases v with
  | list nvs =>
      by_cases he : nvs.isEmpty
      · exact ⟨.str [], m, by simp [nestedRandomSel, he]⟩
      · exact ⟨pyChoice r m nvs, m + 1, by simp [nestedRandomSel, he]⟩
  | str s => exact ⟨.str s, m, rfl⟩
  | int k => exact ⟨.str [], m, rfl⟩
  | dict d => exact ⟨.str [], m, rfl⟩

theorem processClaimDetails_isSome (r : Nat → Nat) (vs : List PyVal)
    (hall : ∀ v ∈ vs, ∃ cd, v = PyVal.dict cd) :
    ∀ m, ∃ ds n2, processClaimDetails r vs m = some (ds, n2) := by
  induction vs with
  | nil => exact fun m => ⟨[], m, rfl⟩
  | cons v rest ih =>
      intro m
      obtain ⟨cd, hcd⟩ := hall v (List.mem_cons_self v rest)
      subst hcd
      obtain ⟨pd, n2, hbr⟩ :=
        buildRecord_isSome (nestedRandomSel r) cd
          (fun p _ m2 => nestedRandomSel_isSome r p.1 p.2 m2) [] m
      obtain ⟨ds, n3, hds⟩ :=
        ih (fun x hx => hall x (List.mem_cons_of_mem _ hx)) n2
      exact ⟨.dict pd :: ds, n3, by
        simp only [processClaimDetails, hbr, hds]⟩

theorem selectEditFieldValue_isSome (r : Nat → Nat) (sec : Sec)
    (hok : secCDOkB sec = true) :
    ∀ p ∈ sec, ∀ m, ∃ x n2, selectEditFieldValue r p.1 p.2 m = some (x, n2) := by
  intro p hp m
  obtain ⟨f, v⟩ := p
  cases v with
  | list vs =>
      by_cases he : vs.isEmpty
      · exact ⟨.str [], m, by simp [selectEditFieldValue, he]⟩
      · by_cases hc : f = "ClaimDetails".data ∧ headIsDict vs = true
        · have hall : ∀ v ∈ vs, ∃ cd, v = PyVal.dict cd := by
            have hsec := List.all_eq_true.mp hok _ hp
            have hvsall : vs.all (fun v =>
                match v with | PyVal.dict _ => true | _ => false) = true := by
              simpa [hc.1, hc.2] using hsec
            intro v hv
            have := List.all_eq_true.mp hvsall v hv
            cases v with
            | dict cd => exact ⟨cd, rfl⟩
            | str t => cases this
            | int k => cases this
            | list l => cases this
          obtain ⟨ds, n2, hds⟩ := processClaimDetails_isSome r vs hall m
          refine ⟨.list ds, n2, ?_⟩
          rw [selectEditFieldValue]
          rw [if_neg (by simp [he]), if_pos hc, hds]
          rfl
        · exact ⟨pyChoice r m vs, m + 1, by
            rw [selectEditFieldValue, if_neg (by simp [he]), if_neg hc]⟩
  | str s => exact ⟨.str [], m, rfl⟩
  | int k => exact ⟨.str [], m, rfl⟩
  | dict d => exact ⟨.str [], m, rfl⟩

theorem select_random_edit_and_record_isSome (r : Nat → Nat)
    (edits : PyDict Sec) (n : Nat) (hne : edits ≠ [])
    (hok : ∀ p ∈ edits, secCDOkB p.2 = true) :
    ∃ key rec n2, select_random_edit_and_record r edits n =
      some ((key, rec), n2) ∧ key ∈ pyKeys edits := by
  have hkeysne : pyKeys edits ≠ [] := by
    cases edits with
    | nil => exact absurd rfl hne
    | cons hd tl => simp [pyKeys]
  have hlen : 0 < (pyKeys edits).length := List.length_pos.mpr hkeysne
  have hkmem : (pyKeys edits).getD (r n % (pyKeys edits).length) [] ∈
      pyKeys edits :=
    getD_mem _ _ _ (Nat.mod_lt _ hlen)
  set key := (pyKeys edits).getD (r n % (pyKeys edits).length) [] with hkey
  have hgetne : pyGet edits key ≠ none := by
    rw [Ne, pyGet_eq_none_iff]
    simpa using hkmem
  cases hget : pyGet edits key with
  | none => exact absurd hget hgetne
  | some ed =>
      have hsecok : secCDOkB ed = true :=
        hok (key, ed) (mem_of_pyGet_eq_some edits key ed hget)
      obtain ⟨rec, n3, hrec⟩ :=
        buildRecord_isSome (selectEditFieldValue r) ed
          (selectEditFieldValue_isSome r ed hsecok) [] (n + 1)
      refine ⟨key, rec, n3, ?_, hkmem⟩
      rw [select_random_edit_and_record,
        if_neg (by simp [List.isEmpty_iff, hne])]
      show (match pyGet edits key with
        | none => none
        | some ed2 => Option.map (fun p => ((key, p.1), p.2))
            (select_random_record_from_edit r ed2 (n + 1))) =
        some ((key, rec), n3)
      rw [hget]
      show Option.map (fun p => ((key, p.1), p.2))
          (select_random_record_from_edit r ed (n + 1)) =
        some ((key, rec), n3)
      rw [select_random_record_from_edit, hrec]
      rfl

theorem build_output_payload_go_spec (r : Nat → Nat) (edits : PyDict Sec)
    (hne : edits ≠ []) (hok : ∀ p ∈ edits, secCDOkB p.2 = true) :
    ∀ (is2 : List Nat) (acc : PyDict (PyDict PyVal)) (n : Nat),
      is2.Nodup →
      (∀ k ∈ pyKeys acc, ∃ k0 i0, k = outputKey k0 i0 ∧ i0 ∉ is2) →
      ∃ out n2, build_output_payload_go r edits is2 acc n = some (out, n2) ∧
        ∃ ks : List Str, (∀ k ∈ ks, k ∈ pyKeys edits) ∧
          ks.length = is2.length ∧
          pyKeys out = pyKeys acc ++
            (is2.zip ks).map (fun p => outputKey p.2 p.1) := by
  intro is2
  induction is2 with
  | nil =>
      intro acc n _ _
      exact ⟨acc, n, rfl, [], by simp, rfl, by simp⟩
  | cons i rest ih =>
      intro acc n hnd hacc
      rw [List.nodup_cons] at hnd
      obtain ⟨key, rec, n3, hsel, hkmem⟩ :=
        select_random_edit_and_record_isSome r edits n hne hok
      have hfresh : outputKey key i ∉ pyKeys acc := by
        intro hmem
        obtain ⟨k0, i0, hk0, hi0⟩ := hacc _ hmem
        have : i0 = i := outputKey_inj_idx k0 key i0 i hk0.symm
        exact hi0 (this ▸ List.mem_cons_self i rest)
      have hacc2 : ∀ k ∈ pyKeys (pyInsert acc (outputKey key i) rec),
          ∃ k0 i0, k = outputKey k0 i0 ∧ i0 ∉ rest := by
        intro k hk
        rw [pyInsert_of_not_mem acc _ rec hfresh] at hk
        have hkeys : pyKeys (acc ++ [(outputKey key i, rec)]) =
            pyKeys acc ++ [outputKey key i] := by
          simp [pyKeys]
        rw [hkeys, List.mem_append] at hk
        rcases hk with hk | hk
        · obtain ⟨k0, i0, hk0, hi0⟩ := hacc k hk
          exact ⟨k0, i0, hk0, fun hr => hi0 (List.mem_cons_of_mem i hr)⟩
        · rcases List.mem_singleton.mp hk with hk2
          exact ⟨key, i, hk2, hnd.1⟩
      obtain ⟨out, n4, hgo, ks, hks, hlenks, hkeysout⟩ :=
        ih (pyInsert acc (outputKey key i) rec) n3 hnd.2 hacc2
      refine ⟨out, n4, ?_, key :: ks, ?_, by simp [hlenks], ?_⟩
      · simp only [build_output_payload_go, hsel]
        exact hgo
      · intro k hk
        rcases List.mem_cons.mp hk with hk | hk
        · exact hk ▸ hkmem
        · exact hks k hk
      · rw [hkeysout, pyInsert_of_not_mem acc _ rec hfresh]
        have hkeys : pyKeys (acc ++ [(outputKey key i, rec)]) =
            pyKeys acc ++ [outputKey key i] := by
          simp [pyKeys]
        rw [hkeys]
        simp [List.zip_cons_cons]

/-- C9.  For every non-empty section mapping (with the parsed
`ClaimDetails` shape) and every integer count, including zero and
negatives, `build_output_payload` succeeds with exactly `max(1, count)`
entries, keyed `{section_key}_output_{i}` for `i` from 1 to
`max(1, count)` with each section key drawn from the mapping; in
particular a count of 0 or less still produces one record. -/
theorem build_output_payload_spec (r : Nat → Nat) (edits : PyDict Sec)
    (count : Int) (n : Nat) (hne : edits ≠ [])
    (hok : ∀ p ∈ edits, secCDOkB p.2 = true) :
    ∃ out n2, build_output_payload r edits count n = some (out, n2) ∧
      out.length = (max 1 count).toNat ∧
      1 ≤ (max 1 count).toNat ∧
      ∃ ks : List Str, (∀ k ∈ ks, k ∈ pyKeys edits) ∧
        ks.length = (max 1 count).toNat ∧
        pyKeys out = ((List.range' 1 (max 1 count).toNat).zip ks).map
          (fun p => outputKey p.2 p.1) := by
  obtain ⟨out, n2, hgo, ks, hks, hlen, hkeys⟩ :=
    build_output_payload_go_spec r edits hne hok
      (List.range' 1 (max 1 count).toNat) [] n
      (List.nodup_range' ..) (by simp [pyKeys])
  refine ⟨out, n2, hgo, ?_, ?_, ks, hks, by simp [hlen], by simpa using hkeys⟩
  · have h1 : out.length = (pyKeys out).length := by simp [pyKeys]
    rw [h1, hkeys]
    simp only [List.length_append, List.length_map, List.length_zip,
      List.length_range', hlen]
    simp [pyKeys]
  · have : (1 : Int) ≤ max 1 count := le_max_left 1 count
    omega

/-- Witness for C9 at a one-section mapping and `count = 0`: the payload
still holds exactly one record. -/
theorem build_output_payload_spec_witness :
    ([("Edit_1".data, [("name".data, PyVal.list [.str "A".data])])] :
        PyDict Sec) ≠ [] ∧
    ∃ out n2, build_output_payload (fun _ => 0)
        [("Edit_1".data, [("name".data, PyVal.list [.str "A".data])])]
        0 0 = some (out, n2) ∧
      out.length = (max 1 (0 : Int)).toNat ∧
      1 ≤ (max 1 (0 : Int)).toNat ∧
      ∃ ks : List Str,
        (∀ k ∈ ks, k ∈ pyKeys
          ([("Edit_1".data, [("name".data, PyVal.list [.str "A".data])])] :
            PyDict Sec)) ∧
        ks.length = (max 1 (0 : Int)).toNat ∧
        pyKeys out = ((List.range' 1 (max 1 (0 : Int)).toNat).zip ks).map
          (fun p => outputKey p.2 p.1) :=
  ⟨by simp, build_output_payload_spec (fun _ => 0)
    [("Edit_1".data, [("name".data, PyVal.list [.str "A".data])])]
    0 0 (by simp) (by decide)⟩

/-! ### C8: base model names and probability-data lookup
(src/src/mockgen/consolidated_generator.py lines 46-71) -/

/-- Python `str.lower()` (ASCII). -/
def pyLower (s : Str) : Str := s.map Char.toLower

/-- Python `str.replace(pat, "")`: remove every (leftmost,
non-overlapping) occurrence of `pat`.  Fuelled by the string length so
the definition is structural; the fuel always suffices. -/
def pyRemoveF (pat : Str) : Nat → Str → Str
  | 0, s => s
  | fuel + 1, s =>
      match s with
      | [] => []
      | c :: rest =>
          if pat ≠ [] ∧ pat.isPrefixOf (c :: rest) then
            pyRemoveF pat fuel ((c :: rest).drop pat.length)
          else c :: pyRemoveF pat fuel rest

def pyRemove (pat s : Str) : Str := pyRemoveF pat s.length s

/-- Python `str.capitalize()`: first character upper-cased, the rest
lower-cased. -/
def pyCapitalize : Str → Str
  | [] => []
  | c :: rest => c.toUpper :: rest.map Char.toLower

/-- Python `set.add`-then-`list` modelled as ordered de-dup insertion
(`list(set(...))` enumerates in an unspecified order; only the resulting
SET is compared below). -/
def setInsert (l : List Str) (x : Str) : List Str :=
  if x ∈ l then l else l ++ [x]

/-- The base name of one section key (consolidated_generator.py lines
50-54): when the LOWER-CASED key CONTAINS any of the three suffix strings
as a substring, the lower-cased key with all their occurrences removed;
otherwise the key unchanged. -/
def baseNameOf (key : Str) : Str :=
  if ["_positive".data, "_negative".data, "_exclusion".data].any
      (fun suf => strContains (pyLower key) suf) then
    pyRemove "_exclusion".data
      (pyRemove "_negative".data (pyRemove "_positive".data (pyLower key)))
  else key

/-- Embedding of `_get_model_names` (consolidated_generator.py lines 46-55). -/
def get_model_names (config : PyDict PyVal) : List Str :=
  (pyKeys config).foldl (fun acc key => setInsert acc (baseNameOf key)) []

/-- Embedding of `_get_probability_data` (consolidated_generator.py lines 57-71): try
`{model}_{type}`, `{model.capitalize()}_{type}`, then the same two with
the lower-cased type. -/
def get_probability_data (config : PyDict PyVal) (modelName ptype : Str) :
    Option PyVal :=
  match pyGet config (modelName ++ '_' :: ptype) with
  | some v => some v
  | none =>
      match pyGet config (pyCapitalize modelName ++ '_' :: ptype) with
      | some v => some v
      | none =>
          match pyGet config (modelName ++ '_' :: pyLower ptype) with
          | some v => some v
          | none => pyGet config (pyCapitalize modelName ++ '_' :: pyLower ptype)

/-- The claim's reading of the derivation: strip one of the three fixed
suffixes case-insensitively from the END of the key, keeping the
original case of the remainder; keys without such a suffix unchanged. -/
def specBaseName (key : Str) : Str :=
  if ("_positive".data).reverse.isPrefixOf (pyLower key).reverse then
    key.take (key.length - 9)
  else if ("_negative".data).reverse.isPrefixOf (pyLower key).reverse then
    key.take (key.length - 9)
  else if ("_exclusion".data).reverse.isPrefixOf (pyLower key).reverse then
    key.take (key.length - 10)
  else key

theorem setInsert_mem (l : List Str) (y x : Str) :
    x ∈ setInsert l y ↔ x ∈ l ∨ x = y := by
  rw [setInsert]
  by_cases hy : y ∈ l
  · rw [if_pos hy]
    constructor
    · exact Or.inl
    · rintro (hx | hx)
      · exact hx
      · exact hx ▸ hy
  · rw [if_neg hy]
    simp

theorem setInsert_nodup (l : List Str) (y : Str) (h : l.Nodup) :
    (setInsert l y).Nodup := by
  rw [setInsert]
  by_cases hy : y ∈ l
  · rwa [if_pos hy]
  · rw [if_neg hy]
    simpa [List.nodup_append] using ⟨h, hy⟩

theorem foldl_setInsert_mem (keys : List Str) :
    ∀ (acc : List Str) (x : Str),
      x ∈ keys.foldl (fun a k => setInsert a (baseNameOf k)) acc ↔
        x ∈ acc ∨ ∃ k ∈ keys, x = baseNameOf k := by
  induction keys with
  | nil => intro acc x; simp
  | cons k1 rest ih =>
      intro acc x
      rw [List.foldl_cons, ih, setInsert_mem]
      constructor
      · rintro ((hx | hx) | ⟨k2, hk2, hx⟩)
        · exact Or.inl hx
        · exact Or.inr ⟨k1, List.mem_cons_self _ _, hx⟩
        · exact Or.inr ⟨k2, List.mem_cons_of_mem _ hk2, hx⟩
      · rintro (hx | ⟨k2, hk2, hx⟩)
        · exact Or.inl (Or.inl hx)
        · rcases List.mem_cons.mp hk2 with hk3 | hk3
          · exact Or.inl (Or.inr (hk3 ▸ hx))
          · exact Or.inr ⟨k2, hk3, hx⟩

theorem foldl_setInsert_nodup (keys : List Str) :
    ∀ (acc : List Str), acc.Nodup →
      (keys.foldl (fun a k => setInsert a (baseNameOf k)) acc).Nodup := by
  induction keys with
  | nil => intro acc h; exact h
  | cons k1 rest ih =>
      intro acc h
      rw [List.foldl_cons]
      exact ih _ (setInsert_nodup acc (baseNameOf k1) h)

/-- C8 (amended).  `_get_model_names` returns (as a de-duplicated list)
exactly the set of `baseNameOf key` over the section keys, where a key
whose LOWER-CASED form contains any of `_positive`, `_negative`,
`_exclusion` as a substring becomes its lower-cased form with every
occurrence of the three removed -- NOT the original-case key with a
suffix stripped, see the counterexample -- and other keys stay unchanged;
and `_get_probability_data` returns the first hit among the four
fallback keys `{base}_{type}`, `{base.capitalize()}_{type}`,
`{base}_{type.lower()}`, `{base.capitalize()}_{type.lower()}`, in that
order. -/
theorem get_model_names_spec (config : PyDict PyVal) :
    (∀ x, x ∈ get_model_names config ↔
      ∃ key ∈ pyKeys config, x = baseNameOf key) ∧
    (get_model_names config).Nodup ∧
    (∀ modelName ptype : Str,
      get_probability_data config modelName ptype =
        (pyGet config (modelName ++ '_' :: ptype)).orElse (fun _ =>
          (pyGet config (pyCapitalize modelName ++ '_' :: ptype)).orElse
            (fun _ =>
          (pyGet config (modelName ++ '_' :: pyLower ptype)).orElse (fun _ =>
            pyGet config (pyCapitalize modelName ++ '_' :: pyLower ptype))))) := by
  refine ⟨?_, ?_, ?_⟩
  · intro x
    rw [get_model_names, foldl_setInsert_mem]
    simp
  · exact foldl_setInsert_nodup (pyKeys config) [] List.nodup_nil
  · intro modelName ptype
    rw [get_probability_data]
    cases h1 : pyGet config (modelName ++ '_' :: ptype) with
    | some v => rfl
    | none =>
        cases h2 : pyGet config (pyCapitalize modelName ++ '_' :: ptype) with
        | some v => simp [Option.orElse]
        | none =>
            cases h3 : pyGet config (modelName ++ '_' :: pyLower ptype) with
            | some v => simp [Option.orElse]
            | none => simp [Option.orElse]

/-- C8 counterexample.  For the single section key `Model_1_Positive`,
the code produces the LOWER-CASED base `model_1`, not the
suffix-stripped original-case `Model_1` that the claim describes: the
two derivations give different sets. -/
theorem get_model_names_counterexample :
    get_model_names [("Model_1_Positive".data, .dict [])] =
      ["model_1".data] ∧
    specBaseName "Model_1_Positive".data = "Model_1".data ∧
    "Model_1".data ∉ get_model_names [("Model_1_Positive".data, .dict [])] := by
  refine ⟨by decide, by decide, by decide⟩

end Mockup
